import Mathlib

/-!
# Verification of `scraper/scraper.go` (Vrex123/go_scraper)

A shallow embedding of the scraper: the document tree of `golang.org/x/net/html`,
`parseHtml`, the retry loop `fetchURL`, the per-URL task `scrapeUrl` and the
scheduler goroutine of `Scrape`, followed by the theorems about them.

Conventions of the embedding.

* Go `int` values (`Retry`, `ParallelReqCount`, `requestCounter`, status codes) are `Int`.
  The only arithmetic that can leave the `int64` range is the sleep duration
  `time.Duration(i+1) * time.Second`; it is wrapped explicitly (`wrapInt64`).
* Everything the program obtains from the outside world is an explicit input:
  the outcome of the `i`-th `httpClient.Get` of a task, the result of `html.Parse`
  on a body, the result of `Body.Close()`, and the local date.
* `slog` calls are not modelled; logging has no effect on control flow.
* A Go run-time panic is an explicit result (`GoResult.panicked`).
* Goroutines are interleaved by an explicit schedule (`List Move`).
-/

namespace Scraper

/-! ## The document tree of `golang.org/x/net/html` -/

/-- The `html.NodeType` enumeration. -/
inductive NodeType where
  | ErrorNode | TextNode | DocumentNode | ElementNode | CommentNode | DoctypeNode | RawNode
  deriving DecidableEq, Repr

/-- The `atom.Atom` code of a tag name.  The table of the `atom` package is not part of
the repository; only the constants the source compares against are named. -/
inductive Atom where
  | Zero | Head | Title | Meta | Other (code : Nat)
  deriving DecidableEq, Repr

/-- The `html.Attribute` struct. -/
structure Attribute where
  Namespace : String
  Key : String
  Val : String
  deriving DecidableEq, Repr

/-- A `*html.Node`: `nil` is the nil pointer, `mk` a node with the fields the source reads
(`Type`, `DataAtom`, `Data`, `Attr`) and its `FirstChild` and `NextSibling` pointers. -/
inductive Node where
  | nil : Node
  | mk (type : NodeType) (DataAtom : Atom) (Data : String) (Attr : List Attribute)
      (FirstChild : Node) (NextSibling : Node) : Node
  deriving DecidableEq, Repr

/-- The nodes of the sibling chain starting at a node together with everything beneath
them, in depth-first preorder. -/
def forest : Node → List Node
  | .nil => []
  | .mk t a d attrs fc ns => Node.mk t a d attrs fc ns :: (forest fc ++ forest ns)

/-- `(*Node).Descendants`: all nodes recursively beneath `n`, excluding `n` itself,
in depth-first preorder. -/
def Node.Descendants : Node → List Node
  | .nil => []
  | .mk _ _ _ _ fc _ => forest fc

/-- Result of a Go call that may panic. -/
inductive GoResult (α : Type) where
  | ret (a : α) : GoResult α
  | panicked (msg : String) : GoResult α
  deriving DecidableEq, Repr

/-- Result `(node, err)` of `html.Parse`. -/
inductive ParseResult where
  | ok (node : Node)
  | err (msg : String)
  deriving DecidableEq, Repr

/-- An `io.ReadCloser` response body, described by what the program can observe of it:
what `html.Parse` returns when reading it and what `Close()` returns. -/
structure Body where
  parsed : ParseResult
  closeErr : Option String
  deriving DecidableEq, Repr

/-- The fields of `*http.Response` the source reads. -/
structure Response where
  StatusCode : Int
  Body : Body
  deriving DecidableEq, Repr

/-- The pair `(resp, err)` returned by `httpClient.Get`.  `net/http` guarantees a non-nil
response when `err == nil`, so the pair `(nil, nil)` is not represented. -/
inductive GetOutcome where
  | transportErr (err : String)                  -- resp == nil, err != nil
  | errWithResp (err : String) (resp : Response) -- resp != nil, err != nil
  | ok (resp : Response)                         -- resp != nil, err == nil
  deriving DecidableEq, Repr

/-- The `Scraper` struct (the timeout only configures the HTTP client). -/
structure Config where
  Timeout : Int
  Retry : Int
  ParallelReqCount : Int
  deriving DecidableEq, Repr

/-! ## `fetchURL` -/

/-- The errors `fetchURL` can return. -/
inductive FetchError where
  | FailedToFetchUrl
  | closeError (msg : String)
  deriving DecidableEq, Repr

/-- The triple `(body, statusCode, err)` returned by `fetchURL`. -/
inductive FetchResult where
  | ok (body : Body) (statusCode : Int)
  | error (e : FetchError)
  deriving DecidableEq, Repr

/-- Observable actions of `fetchURL`, in program order. -/
inductive Event where
  | get (i : Nat)        -- httpClient.Get(url) in iteration i
  | closeBody (i : Nat)  -- resp.Body.Close() in iteration i
  | sleep (nanos : Int)  -- time.Sleep(d), d in nanoseconds
  deriving DecidableEq, Repr

/-- Two's-complement wrap-around of an `int64` result. -/
def wrapInt64 (x : Int) : Int := (x + 2 ^ 63) % 2 ^ 64 - 2 ^ 63

/-- The constant `time.Second`, in nanoseconds. -/
def timeSecond : Int := 1000000000

/-- The value `time.Duration(i+1) * time.Second` of line 112. -/
def backoff (i : Nat) : Int := wrapInt64 (((i : Int) + 1) * timeSecond)

/-- The condition `err != nil || resp.StatusCode > 299` of line 100. -/
def attemptFailed : GetOutcome → Bool
  | .transportErr _ => true
  | .errWithResp _ _ => true
  | .ok resp => decide (resp.StatusCode > 299)

/-- The loop `for i := 0; i < s.Retry; i++` of `fetchURL`, with `remaining` iterations
left and loop variable `i`; `get i` is the outcome of the call made in iteration `i`. -/
def fetchLoop (get : Nat → GetOutcome) : (remaining : Nat) → (i : Nat) → FetchResult × List Event
  | 0, _ => (.error .FailedToFetchUrl, [])
  | r + 1, i =>
    match get i with
    | .transportErr _ =>
      let rest := fetchLoop get r (i + 1)
      (rest.1, .get i :: .sleep (backoff i) :: rest.2)
    | .errWithResp _ resp =>
      match resp.Body.closeErr with
      | some closeError => (.error (.closeError closeError), [.get i, .closeBody i])
      | none =>
        let rest := fetchLoop get r (i + 1)
        (rest.1, .get i :: .closeBody i :: .sleep (backoff i) :: rest.2)
    | .ok resp =>
      if resp.StatusCode > 299 then
        match resp.Body.closeErr with
        | some closeError => (.error (.closeError closeError), [.get i, .closeBody i])
        | none =>
          let rest := fetchLoop get r (i + 1)
          (rest.1, .get i :: .closeBody i :: .sleep (backoff i) :: rest.2)
      else
        (.ok resp.Body resp.StatusCode, [.get i])

/-- The method `fetchURL`: its return value and the trace of its actions. -/
def fetchURL (s : Config) (get : Nat → GetOutcome) : FetchResult × List Event :=
  fetchLoop get s.Retry.toNat 0

/-- Number of HTTP requests in a trace. -/
def attempts (tr : List Event) : Nat :=
  (tr.filter fun e => match e with | .get _ => true | _ => false).length

/-- Durations of the sleeps in a trace, in order. -/
def sleeps : List Event → List Int
  | [] => []
  | .sleep d :: tr => d :: sleeps tr
  | _ :: tr => sleeps tr

/-- Bodies closed by `fetchURL` itself, by iteration index. -/
def closed : List Event → List Nat
  | [] => []
  | .closeBody i :: tr => i :: closed tr
  | _ :: tr => closed tr

/-- Closing the body of a failed response does not error. -/
def closeOk : GetOutcome → Bool
  | .transportErr _ => true
  | .errWithResp _ resp => resp.Body.closeErr.isNone
  | .ok resp => decide (resp.StatusCode ≤ 299) || resp.Body.closeErr.isNone

/-- The attempt fails and the loop goes on: the condition of line 100 holds and closing the
response body, if there is one, returns no error. -/
def continues (o : GetOutcome) : Bool := attemptFailed o && closeOk o

/-- The actions of one failing iteration `i` that goes on to the next one. -/
def failEvents (get : Nat → GetOutcome) (i : Nat) : List Event :=
  match get i with
  | .transportErr _ => [.get i, .sleep (backoff i)]
  | _ => [.get i, .closeBody i, .sleep (backoff i)]

/-- The actions of `j` consecutive failing iterations starting with iteration `i`. -/
def failTrace (get : Nat → GetOutcome) : (i : Nat) → (j : Nat) → List Event
  | _, 0 => []
  | i, j + 1 => failEvents get i ++ failTrace get (i + 1) j

/-- The sleeps `1, 2, ..., j` seconds, in nanoseconds. -/
def linearSleeps (j : Nat) : List Int :=
  (List.range j).map fun (i : Nat) => ((i : Int) + 1) * timeSecond

/-- The claim that `fetchURL` sleeps exactly between consecutive attempts: with `m` attempts
made, the sleeps are `1, ..., m-1` seconds. -/
def SleepsOnlyBetweenAttempts (s : Config) (get : Nat → GetOutcome) : Prop :=
  sleeps (fetchURL s get).2 = linearSleeps (attempts (fetchURL s get).2 - 1)

/-- The success condition as claimed: no transport error and a status code in `[100,299]`. -/
def claimedSuccess : GetOutcome → Bool
  | .ok resp => decide (100 ≤ resp.StatusCode ∧ resp.StatusCode ≤ 299)
  | _ => false

/-- The call of `fetchURL` returns the body and status code of the response of iteration `j`
and makes no further attempt. -/
def ReturnsAttempt (s : Config) (get : Nat → GetOutcome) (j : Nat) : Prop :=
  attempts (fetchURL s get).2 = j + 1 ∧
    ∃ resp, get j = .ok resp ∧ (fetchURL s get).1 = .ok resp.Body resp.StatusCode

/-- A response without transport error, with the given status code. -/
def okResponse (status : Int) : GetOutcome :=
  .ok ⟨status, ⟨.err "no document", none⟩⟩

/-- An endpoint that answers 500 to every request. -/
def alwaysFails : Nat → GetOutcome := fun _ => okResponse 500

/-- An endpoint that answers 500 to the first request and 200 to the later ones. -/
def secondCallSucceeds : Nat → GetOutcome := fun i => if i = 0 then okResponse 500 else okResponse 200

/-- An endpoint that answers 300 to the first request and 299 to the later ones. -/
def redirectThenOk : Nat → GetOutcome := fun i => if i = 0 then okResponse 300 else okResponse 299

/-! ## `parseHtml` -/

/-- The inner loop of lines 139-143: every `content` attribute overwrites `description`. -/
def contentLoop (attrs : List Attribute) (description : String) : String :=
  attrs.foldl (fun d a => if a.Key = "content" then a.Val else d) description

/-- The loop of lines 137-145 over the attributes of a `<meta>` element: for every attribute
`name="description"` the inner loop runs over all attributes of the element. -/
def metaLoop (attrs : List Attribute) (description : String) : String :=
  attrs.foldl
    (fun d attr => if attr.Key = "name" ∧ attr.Val = "description" then contentLoop attrs d else d)
    description

/-- The body of the loop over the descendants of a `head` element (lines 134-146), acting on
the local variables `(title, description)`; `headNode.FirstChild.Data` dereferences
`FirstChild` without a nil check. -/
def headStep (st : String × String) : Node → GoResult (String × String)
  | .nil => .panicked "nil pointer dereference"
  | .mk type dataAtom _ attrs firstChild _ =>
    if type = .ElementNode ∧ dataAtom = .Title then
      match firstChild with
      | .nil => .panicked "nil pointer dereference"
      | .mk _ _ data _ _ _ => .ret (data, st.2)
    else if type = .ElementNode ∧ dataAtom = .Meta then
      .ret (st.1, metaLoop attrs st.2)
    else
      .ret st

/-- The loop `for headNode := range n.Descendants()` of line 133. -/
def headLoop : List Node → String × String → GoResult (String × String)
  | [], st => .ret st
  | headNode :: rest, st =>
    match headStep st headNode with
    | .ret st1 => headLoop rest st1
    | .panicked msg => .panicked msg

/-- The test `n.Type == html.ElementNode && n.Data == "head"` of line 132. -/
def isHead : Node → Bool
  | .nil => false
  | .mk type _ data _ _ _ => decide (type = .ElementNode ∧ data = "head")

/-- The loop `for n := range node.Descendants()` of line 131. -/
def docLoop : List Node → String × String → GoResult (String × String)
  | [], st => .ret st
  | n :: rest, st =>
    if isHead n then
      match headLoop n.Descendants st with
      | .ret st1 => docLoop rest st1
      | .panicked msg => .panicked msg
    else
      docLoop rest st

/-- The method `parseHtml`: the triple `(title, description, err)` it returns, or a panic. -/
def parseHtml (r : Body) : GoResult (String × String × Option String) :=
  match r.parsed with
  | .err e => .ret ("", "", some e)
  | .ok node =>
    match docLoop node.Descendants ("", "") with
    | .ret st => .ret (st.1, st.2, none)
    | .panicked msg => .panicked msg

/-! ### Reference description of the extraction -/

/-- An element whose `DataAtom` is `atom.Meta`. -/
def isMeta : Node → Bool
  | .nil => false
  | .mk type dataAtom _ _ _ _ => decide (type = .ElementNode ∧ dataAtom = .Meta)

/-- An element whose `DataAtom` is `atom.Title`. -/
def isTitle : Node → Bool
  | .nil => false
  | .mk type dataAtom _ _ _ _ => decide (type = .ElementNode ∧ dataAtom = .Title)

/-- The attribute list of a node. -/
def attrsOf : Node → List Attribute
  | .nil => []
  | .mk _ _ _ attrs _ _ => attrs

/-- The node has no child (`FirstChild == nil`). -/
def childless : Node → Bool
  | .nil => true
  | .mk _ _ _ _ .nil _ => true
  | .mk _ _ _ _ (.mk _ _ _ _ _ _) _ => false

/-- The `Data` of the first child of a node (empty when there is none). -/
def firstChildData : Node → String
  | .mk _ _ _ _ (.mk _ _ data _ _ _) _ => data
  | _ => ""

/-- The node carries an attribute `name="description"`. -/
def hasNameDescription (n : Node) : Bool :=
  (attrsOf n).any fun a => decide (a.Key = "name" ∧ a.Val = "description")

/-- The node carries a `content` attribute. -/
def hasContent (n : Node) : Bool :=
  (attrsOf n).any fun a => decide (a.Key = "content")

/-- A `<meta>` element with attribute `name="description"` and a `content` attribute. -/
def isDescriptionMeta (n : Node) : Bool :=
  isMeta n && hasNameDescription n && hasContent n

/-- The value of the `content` attribute of a node (of the last one, should the attribute
be repeated; empty when there is none). -/
def contentValue (n : Node) : String :=
  ((((attrsOf n).filter fun a => decide (a.Key = "content")).getLast?).map Attribute.Val).getD ""

/-- The effect on `description` of one iteration of the loop over the descendants of
`head`, as specified: a matching `<meta>` overwrites it with its `content`. -/
def descStep (d : String) (n : Node) : String :=
  if isDescriptionMeta n then contentValue n else d

/-- The `head` elements of a document, in depth-first order. -/
def heads (root : Node) : List Node :=
  root.Descendants.filter isHead

/-- The description as specified: the `content` of the last matching `<meta>` among the
descendants of `<head>` in depth-first order, empty when there is none. -/
def specDescription (root : Node) : String :=
  match (heads root).head? with
  | none => ""
  | some head =>
    match (head.Descendants.filter isDescriptionMeta).getLast? with
    | some m => contentValue m
    | none => ""

/-- No `<title>` element beneath a `head` element of the document is childless. -/
def titlesHaveChild (root : Node) : Bool :=
  (heads root).all fun head => head.Descendants.all fun n => !(isTitle n && childless n)

/-- A text node. -/
def textNode (data : String) (next : Node) : Node :=
  .mk .TextNode .Zero data [] .nil next

/-- The tree `html.Parse` builds for
`<html><head><title>T</title><meta name="description" content="D"></head></html>`
(the parser supplies the empty `body`). -/
def exampleDoc : Node :=
  .mk .DocumentNode .Zero "" []
    (.mk .ElementNode (.Other 0) "html" []
      (.mk .ElementNode .Head "head" []
        (.mk .ElementNode .Title "title" [] (textNode "T" .nil)
          (.mk .ElementNode .Meta "meta" [⟨"", "name", "description"⟩, ⟨"", "content", "D"⟩]
            .nil .nil))
        (.mk .ElementNode (.Other 1) "body" [] .nil .nil))
      .nil)
    .nil

/-- The tree `html.Parse` builds for `<html><head><title></title></head></html>`:
the `title` element has no child. -/
def emptyTitleDoc : Node :=
  .mk .DocumentNode .Zero "" []
    (.mk .ElementNode (.Other 0) "html" []
      (.mk .ElementNode .Head "head" []
        (.mk .ElementNode .Title "title" [] .nil .nil)
        (.mk .ElementNode (.Other 1) "body" [] .nil .nil))
      .nil)
    .nil

/-- A body on which `html.Parse` succeeds with the given tree. -/
def bodyOf (root : Node) : Body := ⟨.ok root, none⟩

/-! ## `scrapeUrl` -/

/-- The channel operations (and the deferred close and a panic) of one `scrapeUrl` task,
in program order. -/
inductive TaskAction where
  | sendOut (record : List String)  -- c <- []string{...}
  | sendSig                         -- sig <- struct{}{}
  | closeBody                       -- deferred buf.Close()
  | panic (msg : String)            -- run-time panic of the goroutine
  deriving DecidableEq, Repr

/-- The method `scrapeUrl`: the actions of the task for `url`, given the outcomes `get` of
its HTTP requests and the local date `date` at the time the record is built. -/
def scrapeUrl (s : Config) (get : Nat → GetOutcome) (date url : String) : List TaskAction :=
  match (fetchURL s get).1 with
  | .error _ => [.sendSig]
  | .ok buf statusCode =>
    match parseHtml buf with
    | .panicked msg => [.closeBody, .panic msg]
    | .ret (title, description, _) =>
      [.sendOut [date, url, toString statusCode, title, description], .sendSig, .closeBody]

/-- Number of records a task program emits. -/
def recordsOf (prog : List TaskAction) : List (List String) :=
  prog.filterMap fun a => match a with | .sendOut r => some r | _ => none

/-- Number of completion signals a task program sends. -/
def signalsOf (prog : List TaskAction) : Nat :=
  (prog.filter fun a => decide (a = .sendSig)).length

/-! ## `Scrape`: the scheduler goroutine and its tasks -/

/-- What the outside world supplies to one task: the outcomes of its HTTP requests and the
local date. -/
structure TaskEnv where
  get : Nat → GetOutcome
  date : String

/-- Program points of the scheduler goroutine (lines 40-71). -/
inductive Pc where
  | top                  -- line 43: test of the admission condition
  | waitSig              -- line 45: blocked in the receive from sig
  | decr                 -- line 46: requestCounter--
  | recvIn               -- line 50: blocked in the receive from in
  | incr (url : String)  -- line 56: requestCounter++
  | spawn (url : String) -- line 57: go s.scrapeUrl(url, out, sig)
  | drainCheck           -- line 60: if requestCounter > 0
  | drainWait            -- line 61: blocked in the range over sig
  | drainDecr            -- lines 62-66: requestCounter--, test for 0
  | closeSig             -- line 70: close(sig)
  | closeOut             -- line 71: close(out)
  | done
  deriving DecidableEq, Repr

/-- A launched `scrapeUrl` goroutine: its URL, its actions in program order and the number
of them it has performed. -/
structure Task where
  url : String
  prog : List TaskAction
  pos : Nat
  deriving DecidableEq, Repr

/-- The task has completed its send on `sig`, that is, the scheduler has received its
completion signal. -/
def Task.signalled (t : Task) : Bool :=
  decide (TaskAction.sendSig ∈ t.prog.take t.pos)

/-- The task with its next action performed. -/
def Task.advance (t : Task) : Task :=
  { t with pos := t.pos + 1 }

/-- State of one run of `Scrape`. -/
structure State where
  pc : Pc
  requestCounter : Int
  input : List String         -- items not yet received from the channel in
  tasks : List Task           -- launched tasks, in launch order
  out : List (List String)    -- records received by the consumer of out, in order
  sigReceived : Nat           -- number of receives from sig performed by the scheduler
  sigClosed : Bool
  outClosed : Bool
  crashed : Bool              -- a goroutine panicked: the process is gone
  deriving DecidableEq, Repr

/-- State at the start of the scheduler goroutine. -/
def initState (input : List String) : State :=
  { pc := .top, requestCounter := 0, input := input, tasks := [], out := [],
    sigReceived := 0, sigClosed := false, outClosed := false, crashed := false }

/-- One atomic step of the system: a step of the scheduler on its own, the rendezvous on
`sig` between the scheduler and task `i`, or any other action of task `i`. -/
inductive Move where
  | sched
  | signal (i : Nat)
  | task (i : Nat)
  deriving DecidableEq, Repr

/-- A step of the scheduler goroutine that involves no other goroutine. -/
def schedStep (s : Config) (env : Nat → TaskEnv) (st : State) : Option State :=
  match st.pc with
  | .top =>
    some { st with pc := if st.requestCounter ≥ s.ParallelReqCount then .waitSig else .recvIn }
  | .decr => some { st with requestCounter := st.requestCounter - 1, pc := .top }
  | .recvIn =>
    match st.input with
    | [] => some { st with pc := .drainCheck }
    | url :: rest => some { st with input := rest, pc := .incr url }
  | .incr url => some { st with requestCounter := st.requestCounter + 1, pc := .spawn url }
  | .spawn url =>
    some { st with
      tasks := st.tasks ++
        [⟨url, scrapeUrl s (env st.tasks.length).get (env st.tasks.length).date url, 0⟩],
      pc := .top }
  | .drainCheck =>
    some { st with pc := if st.requestCounter > 0 then .drainWait else .closeSig }
  | .drainDecr =>
    some { st with
      requestCounter := st.requestCounter - 1,
      pc := if st.requestCounter - 1 = 0 then .closeSig else .drainWait }
  | .closeSig => some { st with sigClosed := true, pc := .closeOut }
  | .closeOut => some { st with outClosed := true, pc := .done }
  | .waitSig => none
  | .drainWait => none
  | .done => none

/-- The next action of task `i`, if the task exists and has not finished. -/
def nextAction (st : State) (i : Nat) : Option (Task × TaskAction) :=
  match st.tasks.get? i with
  | none => none
  | some t =>
    match t.prog.get? t.pos with
    | none => none
    | some a => some (t, a)

/-- The send `sig <- struct{}{}` of task `i` meeting a receive of the scheduler. -/
def signalStep (i : Nat) (st : State) : Option State :=
  match nextAction st i with
  | some (t, .sendSig) =>
    match st.pc with
    | .waitSig =>
      some { st with
        tasks := st.tasks.set i t.advance, sigReceived := st.sigReceived + 1, pc := .decr }
    | .drainWait =>
      some { st with
        tasks := st.tasks.set i t.advance, sigReceived := st.sigReceived + 1, pc := .drainDecr }
    | _ => none
  | _ => none

/-- An action of task `i` other than a completed send on `sig`: a send on `out` (the consumer
is always ready to receive), the deferred close, or a panic; a send on a closed channel
panics. -/
def taskStep (i : Nat) (st : State) : Option State :=
  match nextAction st i with
  | some (t, .sendOut record) =>
    if st.outClosed then some { st with crashed := true }
    else some { st with out := st.out ++ [record], tasks := st.tasks.set i t.advance }
  | some (t, .closeBody) => some { st with tasks := st.tasks.set i t.advance }
  | some (_, .panic _) => some { st with crashed := true }
  | some (_, .sendSig) => if st.sigClosed then some { st with crashed := true } else none
  | none => none

/-- One step of the system; `none` when the move is not enabled.  Nothing runs after a
panic. -/
def step (s : Config) (env : Nat → TaskEnv) (m : Move) (st : State) : Option State :=
  if st.crashed then none
  else
    match m with
    | .sched => schedStep s env st
    | .signal i => signalStep i st
    | .task i => taskStep i st

/-- The state reached from `st` by a schedule; `none` when some move is not enabled. -/
def runFrom (s : Config) (env : Nat → TaskEnv) : List Move → State → Option State
  | [], st => some st
  | m :: ms, st =>
    match step s env m st with
    | some st1 => runFrom s env ms st1
    | none => none

/-- The state reached by a schedule from the start of `Scrape` on the given input. -/
def run (s : Config) (env : Nat → TaskEnv) (input : List String) (sch : List Move) : Option State :=
  runFrom s env sch (initState input)

/-- The moves enabled in a state. -/
def enabledMoves (s : Config) (env : Nat → TaskEnv) (st : State) : List Move :=
  ((Move.sched :: (List.range st.tasks.length).map Move.signal)
    ++ (List.range st.tasks.length).map Move.task).filter fun m => (step s env m st).isSome

/-- Number of tasks of a list whose completion signal has not been received. -/
def unsignalled (tasks : List Task) : Nat :=
  (tasks.filter fun t => !t.signalled).length

/-- Launched tasks whose completion signal the scheduler has not yet received. -/
def inFlight (st : State) : Nat :=
  unsignalled st.tasks

/-- The records the tasks of a list have sent on `out` so far. -/
def emitted (tasks : List Task) : List (List String) :=
  tasks.flatMap fun t => recordsOf (t.prog.take t.pos)

/-- The `url` field of a record (index 1). -/
def urlField (record : List String) : String := record.getD 1 ""

/-- The admission bound at a state: `0 <= requestCounter <= k` and at most `k` tasks whose
completion signal has not been received. -/
def AdmissionBound (k : Int) (st : State) : Prop :=
  0 ≤ st.requestCounter ∧ st.requestCounter ≤ k ∧ (inFlight st : Int) ≤ k

/-- The scheduler has drained: the input is consumed, one task was launched per input item,
one signal was received per launched task and every task has been signalled. -/
def Drained (input : List String) (st : State) : Prop :=
  st.input = [] ∧ st.tasks.map Task.url = input ∧ st.sigReceived = st.tasks.length ∧
    inFlight st = 0 ∧ st.requestCounter = 0

/-- The scheduler has left both loops (it is at `close(sig)` or beyond). -/
def pastDrain : Pc → Bool
  | .closeSig => true
  | .closeOut => true
  | .done => true
  | _ => false

/-- Rank of a program point in the termination measure. -/
def pcRank : Pc → Nat
  | .done => 0
  | .closeOut => 1
  | .closeSig => 2
  | .drainWait => 3
  | .drainDecr => 4
  | .drainCheck => 4
  | .recvIn => 5
  | .waitSig => 5
  | .top => 6
  | .decr => 7
  | .spawn _ => 16
  | .incr _ => 17

/-- Actions the launched tasks still have to perform. -/
def pendingActions (tasks : List Task) : Nat :=
  (tasks.map fun t => t.prog.length - t.pos).sum

/-- Termination measure: every step of the system decreases it. -/
def potential (st : State) : Nat :=
  13 * st.input.length + 3 * pendingActions st.tasks + pcRank st.pc
    + (if st.crashed then 0 else 1)

/-- The program of the `i`-th launched task of a run on `input`. -/
def launchProg (s : Config) (env : Nat → TaskEnv) (input : List String) (i : Nat) :
    List TaskAction :=
  scrapeUrl s (env i).get (env i).date (input.getD i "")

/-- Difference between `requestCounter` and the number of unsignalled tasks at a program
point: one between the increment and the launch, and between a receive and the decrement. -/
def pcAdjust : Pc → Int
  | .decr => 1
  | .drainDecr => 1
  | .spawn _ => 1
  | _ => 0

/-- The URL received from `in` for which no task has been launched yet. -/
def pcPending : Pc → List String
  | .incr url => [url]
  | .spawn url => [url]
  | _ => []

/-- The scheduler has left the dispatch loop (it has seen `in` closed). -/
def inputSeen : Pc → Bool
  | .drainCheck => true
  | .drainWait => true
  | .drainDecr => true
  | .closeSig => true
  | .closeOut => true
  | .done => true
  | _ => false

/-- The three forms of a `scrapeUrl` program. -/
def ProgShape (url : String) (prog : List TaskAction) : Prop :=
  prog = [.sendSig] ∨ (∃ msg, prog = [.closeBody, .panic msg]) ∨
    ∃ record, urlField record = url ∧ prog = [.sendOut record, .sendSig, .closeBody]

/-- The invariant of a run of `Scrape` on `input`. -/
structure Inv (s : Config) (env : Nat → TaskEnv) (input : List String) (st : State) : Prop where
  counter : st.requestCounter = (unsignalled st.tasks : Int) + pcAdjust st.pc
  urls : st.tasks.map Task.url ++ pcPending st.pc ++ st.input = input
  progs : ∀ t ∈ st.tasks, ∃ i, i < input.length ∧ t.url = input.getD i "" ∧
    t.prog = launchProg s env input i
  received : st.sigReceived + unsignalled st.tasks = st.tasks.length
  seen : inputSeen st.pc = true → st.input = []
  drained : pastDrain st.pc = true → st.requestCounter = 0
  sigClosed : st.sigClosed = true ↔ (st.pc = .closeOut ∨ st.pc = .done)
  outClosed : st.outClosed = true ↔ st.pc = .done
  waiting : st.pc = .waitSig → s.ParallelReqCount ≤ st.requestCounter
  draining : st.pc = .drainWait → 0 < st.requestCounter
  records : st.out.Perm (emitted st.tasks)
  crash : st.crashed = true → ∃ t ∈ st.tasks, ∃ msg, TaskAction.panic msg ∈ t.prog

/-- One at the program points between a passed admission test and the increment. -/
def pcReserve : Pc → Int
  | .recvIn => 1
  | .incr _ => 1
  | _ => 0

/-- The part of the admission bound that is local to the scheduler: the counter is at most
`k`, and below `k` once the admission test has passed. -/
def CounterBound (k : Int) (st : State) : Prop :=
  st.requestCounter + pcReserve st.pc ≤ k

/-- An environment in which every request is answered with status 200 and the example
document. -/
def okEnv : Nat → TaskEnv :=
  fun _ => ⟨fun _ => .ok ⟨200, bodyOf exampleDoc⟩, "2024-01-01"⟩

/-- The claim that the scheduler terminates on `input`: no run is longer than a bound linear
in the input, a run can only stop at the end of the scheduler, and the scheduler closes its
channels only once drained, `sig` before `out`. -/
def SchedulerTerminates (s : Config) (env : Nat → TaskEnv) (input : List String) : Prop :=
  ∀ sch st, run s env input sch = some st →
    sch.length ≤ 13 * input.length + 7 ∧
    (st.pc ≠ .done → enabledMoves s env st ≠ []) ∧
    (pastDrain st.pc = true → Drained input st) ∧
    (st.sigClosed = true → pastDrain st.pc = true) ∧
    (st.outClosed = true → st.sigClosed = true ∧ st.pc = .done) ∧
    ∃ sch1 st1, run s env input (sch ++ sch1) = some st1 ∧ st1.pc = .done ∧ st1.outClosed = true

/-- The claim about the empty input: no task is ever launched, no record is ever emitted,
the scheduler is never blocked before its end, and it reaches its end with the output
closed. -/
def EmptyInputCloses (s : Config) (env : Nat → TaskEnv) : Prop :=
  (∀ sch st, run s env [] sch = some st →
    st.tasks = [] ∧ st.out = [] ∧ (st.pc ≠ .done → enabledMoves s env st ≠ [])) ∧
  ∃ sch st, run s env [] sch = some st ∧ st.pc = .done ∧ st.outClosed = true ∧
    st.tasks = [] ∧ st.out = []

/-- The record `okEnv` yields for a URL. -/
def okRecord (url : String) : List String := ["2024-01-01", url, "200", "T", "D"]

/-- The program of a task in `okEnv`. -/
def okProg (url : String) : List TaskAction := [.sendOut (okRecord url), .sendSig, .closeBody]

/-- A schedule for the input `["a"]` with `maxParallel = 1` up to the point where the
scheduler waits for the only task. -/
def waitingSchedule : List Move := [.sched, .sched, .sched, .sched, .sched]

/-- The state reached by `waitingSchedule`. -/
def waitingState : State :=
  { pc := .waitSig, requestCounter := 1, input := [], tasks := [⟨"a", okProg "a", 0⟩], out := [],
    sigReceived := 0, sigClosed := false, outClosed := false, crashed := false }

/-- A complete schedule for the input `["a", "b"]` with `maxParallel = 1`; the record of `"a"`
is emitted and its signal received before `"b"` is launched. -/
def completeSchedule : List Move :=
  [.sched, .sched, .sched, .sched, .sched, .task 0, .signal 0, .sched,
   .sched, .sched, .sched, .sched, .sched, .task 1, .signal 1, .sched,
   .sched, .sched, .sched, .sched, .sched]

/-- The state reached by `completeSchedule`. -/
def completeState : State :=
  { pc := .done, requestCounter := 0, input := [],
    tasks := [⟨"a", okProg "a", 2⟩, ⟨"b", okProg "b", 2⟩],
    out := [okRecord "a", okRecord "b"],
    sigReceived := 2, sigClosed := true, outClosed := true, crashed := false }

end Scraper

namespace Scraper

/-! ## Theorems about `fetchURL` -/

theorem backoff_eq (i : Nat) (h : (i : Int) + 1 ≤ 9223372036) :
    backoff i = ((i : Int) + 1) * timeSecond := by
  unfold backoff wrapInt64 timeSecond
  norm_num
  omega

theorem attempts_append (l1 l2 : List Event) :
    attempts (l1 ++ l2) = attempts l1 + attempts l2 := by
  simp [attempts]

theorem sleeps_append (l1 l2 : List Event) : sleeps (l1 ++ l2) = sleeps l1 ++ sleeps l2 := by
  induction l1 with
  | nil => simp [sleeps]
  | cons e l ih => cases e <;> simp [sleeps, ih]

theorem fetchLoop_continue (get : Nat → GetOutcome) (r i : Nat) (h : continues (get i) = true) :
    fetchLoop get (r + 1) i
      = ((fetchLoop get r (i + 1)).1, failEvents get i ++ (fetchLoop get r (i + 1)).2) := by
  unfold continues attemptFailed closeOk at h
  rw [fetchLoop, failEvents]
  cases hg : get i with
  | transportErr e => simp
  | errWithResp e resp =>
    rw [hg] at h
    cases hc : resp.Body.closeErr with
    | none => simp [hc]
    | some c => simp [hc] at h
  | ok resp =>
    rw [hg] at h
    simp only [Bool.and_eq_true, decide_eq_true_eq, Bool.or_eq_true] at h
    have h1 : resp.StatusCode > 299 := h.1
    have h2 : resp.Body.closeErr.isNone = true := by
      rcases h.2 with h2 | h2
      · omega
      · exact h2
    cases hc : resp.Body.closeErr with
    | none => simp [h1, hc]
    | some c => simp [hc] at h2

theorem fetchLoop_success (get : Nat → GetOutcome) (r i : Nat)
    (h : attemptFailed (get i) = false) :
    ∃ resp, get i = .ok resp ∧ resp.StatusCode ≤ 299 ∧
      fetchLoop get (r + 1) i = (.ok resp.Body resp.StatusCode, [.get i]) := by
  unfold attemptFailed at h
  cases hg : get i with
  | transportErr e => simp [hg] at h
  | errWithResp e resp => simp [hg] at h
  | ok resp =>
    rw [hg] at h
    simp only [decide_eq_false_iff_not, not_lt] at h
    refine ⟨resp, rfl, h, ?_⟩
    rw [fetchLoop, hg]
    simp only
    rw [if_neg (by omega)]

theorem fetchLoop_closeError (get : Nat → GetOutcome) (r i : Nat)
    (hf : attemptFailed (get i) = true) (hc : closeOk (get i) = false) :
    ∃ msg, fetchLoop get (r + 1) i = (.error (.closeError msg), [.get i, .closeBody i]) := by
  unfold attemptFailed at hf
  unfold closeOk at hc
  cases hg : get i with
  | transportErr e => simp [hg] at hc
  | errWithResp e resp =>
    rw [hg] at hc
    cases hcl : resp.Body.closeErr with
    | none => simp [hcl] at hc
    | some c => exact ⟨c, by rw [fetchLoop, hg]; simp [hcl]⟩
  | ok resp =>
    rw [hg] at hc hf
    simp only [decide_eq_true_eq] at hf
    cases hcl : resp.Body.closeErr with
    | none => simp [hcl] at hc
    | some c => exact ⟨c, by rw [fetchLoop, hg]; simp [hcl, hf]⟩

theorem fetchLoop_prefix (get : Nat → GetOutcome) (j : Nat) :
    ∀ (r i : Nat), (∀ d, d < j → continues (get (i + d)) = true) →
      fetchLoop get (j + r) i
        = ((fetchLoop get r (i + j)).1, failTrace get i j ++ (fetchLoop get r (i + j)).2) := by
  induction j with
  | zero => intro r i _; simp [failTrace]
  | succ j ih =>
    intro r i h
    have h0 : continues (get i) = true := by simpa using h 0 (Nat.succ_pos j)
    have hrest : ∀ d, d < j → continues (get (i + 1 + d)) = true := by
      intro d hd
      have := h (d + 1) (by omega)
      rwa [show i + (d + 1) = i + 1 + d by omega] at this
    have e1 : j + 1 + r = (j + r) + 1 := by omega
    rw [e1, fetchLoop_continue get (j + r) i h0, ih r (i + 1) hrest]
    simp [failTrace, show i + 1 + j = i + (j + 1) by omega]

theorem attempts_failEvents (get : Nat → GetOutcome) (i : Nat) :
    attempts (failEvents get i) = 1 := by
  unfold failEvents
  cases get i <;> simp [attempts]

theorem attempts_failTrace (get : Nat → GetOutcome) (j : Nat) :
    ∀ i, attempts (failTrace get i j) = j := by
  induction j with
  | zero => intro i; simp [failTrace, attempts]
  | succ j ih =>
    intro i
    rw [failTrace, attempts_append, attempts_failEvents, ih]
    omega

theorem sleeps_failEvents (get : Nat → GetOutcome) (i : Nat) :
    sleeps (failEvents get i) = [backoff i] := by
  unfold failEvents
  cases get i <;> simp [sleeps]

theorem sleeps_failTrace (get : Nat → GetOutcome) (j : Nat) :
    ∀ i, sleeps (failTrace get i j) = (List.range j).map fun d => backoff (i + d) := by
  induction j with
  | zero => intro i; simp [failTrace, sleeps]
  | succ j ih =>
    intro i
    rw [failTrace, sleeps_append, sleeps_failEvents, ih, List.range_succ_eq_map]
    simp [Function.comp_def, Nat.add_comm, Nat.add_left_comm]

theorem sleeps_failTrace_zero (get : Nat → GetOutcome) (j : Nat)
    (hj : (j : Int) ≤ 9223372036) : sleeps (failTrace get 0 j) = linearSleeps j := by
  rw [sleeps_failTrace, linearSleeps]
  apply List.map_congr_left
  intro d hd
  have hd1 : d < j := List.mem_range.mp hd
  rw [Nat.zero_add]
  exact backoff_eq d (by omega)

theorem fetchURL_exhausted (s : Config) (get : Nat → GetOutcome)
    (h : ∀ i, i < s.Retry.toNat → continues (get i) = true) :
    fetchURL s get = (.error .FailedToFetchUrl, failTrace get 0 s.Retry.toNat) := by
  have := fetchLoop_prefix get s.Retry.toNat 0 0 (by simpa using h)
  simpa [fetchURL, fetchLoop] using this

theorem fetchURL_success_at (s : Config) (get : Nat → GetOutcome) (j : Nat)
    (hj : j < s.Retry.toNat) (h : ∀ i, i < j → continues (get i) = true)
    (hs : attemptFailed (get j) = false) :
    ∃ resp, get j = .ok resp ∧ resp.StatusCode ≤ 299 ∧
      fetchURL s get = (.ok resp.Body resp.StatusCode, failTrace get 0 j ++ [.get j]) := by
  obtain ⟨r, hr⟩ : ∃ r, s.Retry.toNat = j + (r + 1) := ⟨s.Retry.toNat - j - 1, by omega⟩
  obtain ⟨resp, hg, hle, hl⟩ := fetchLoop_success get r j hs
  refine ⟨resp, hg, hle, ?_⟩
  have := fetchLoop_prefix get j (r + 1) 0 (by simpa using h)
  rw [fetchURL, hr, this]
  simp [hl]

theorem fetchURL_closeError_at (s : Config) (get : Nat → GetOutcome) (j : Nat)
    (hj : j < s.Retry.toNat) (h : ∀ i, i < j → continues (get i) = true)
    (hf : attemptFailed (get j) = true) (hc : closeOk (get j) = false) :
    ∃ msg, fetchURL s get
      = (.error (.closeError msg), failTrace get 0 j ++ [.get j, .closeBody j]) := by
  obtain ⟨r, hr⟩ : ∃ r, s.Retry.toNat = j + (r + 1) := ⟨s.Retry.toNat - j - 1, by omega⟩
  obtain ⟨msg, hl⟩ := fetchLoop_closeError get r j hf hc
  refine ⟨msg, ?_⟩
  have := fetchLoop_prefix get j (r + 1) 0 (by simpa using h)
  rw [fetchURL, hr, this]
  simp [hl]

theorem failTrace_succ_right (get : Nat → GetOutcome) (j : Nat) :
    ∀ i, failTrace get i (j + 1) = failTrace get i j ++ failEvents get (i + j) := by
  induction j with
  | zero => intro i; simp [failTrace]
  | succ j ih =>
    intro i
    rw [failTrace, ih (i + 1), failTrace]
    simp [show i + 1 + j = i + (j + 1) by omega]

theorem fetchLoop_head (get : Nat → GetOutcome) (r i : Nat) :
    ∃ tl, (fetchLoop get (r + 1) i).2 = Event.get i :: tl := by
  unfold fetchLoop
  split <;> (try split) <;> (try split) <;> simp

theorem fetchLoop_zero (get : Nat → GetOutcome) (i : Nat) :
    fetchLoop get 0 i = (.error .FailedToFetchUrl, []) := by
  rw [fetchLoop]

theorem closeBody_mem_failEvents (get : Nat → GetOutcome) (j : Nat) (resp : Response)
    (hg : get j = .ok resp) : Event.closeBody j ∈ failEvents get j := by
  simp [failEvents, hg]

theorem sleep_mem_failEvents (get : Nat → GetOutcome) (j : Nat) :
    Event.sleep (backoff j) ∈ failEvents get j := by
  unfold failEvents
  cases get j <;> simp

theorem fetchURL_continue_at (s : Config) (get : Nat → GetOutcome) (j : Nat)
    (hj : j < s.Retry.toNat) (h : ∀ i, i < j + 1 → continues (get i) = true) :
    ∃ res tr, fetchURL s get = (res, failTrace get 0 j ++ failEvents get j ++ tr) ∧
      (∀ body status, res = .ok body status → 1 ≤ attempts tr) ∧
      (j + 1 < s.Retry.toNat → Event.get (j + 1) ∈ tr) := by
  obtain ⟨r, hr⟩ : ∃ r, s.Retry.toNat = (j + 1) + r := ⟨s.Retry.toNat - j - 1, by omega⟩
  have := fetchLoop_prefix get (j + 1) r 0 (by simpa using h)
  refine ⟨(fetchLoop get r (j + 1)).1, (fetchLoop get r (j + 1)).2, ?_, ?_, ?_⟩
  · rw [fetchURL, hr, this]
    simp [failTrace_succ_right]
  · intro body status hres
    cases r with
    | zero => simp [fetchLoop_zero] at hres
    | succ r =>
      obtain ⟨tl, htl⟩ := fetchLoop_head get r (j + 1)
      rw [htl]
      simp [attempts]
  · intro hlt
    cases r with
    | zero => omega
    | succ r =>
      obtain ⟨tl, htl⟩ := fetchLoop_head get r (j + 1)
      rw [htl]
      simp

theorem attemptFailed_false_iff (o : GetOutcome) :
    attemptFailed o = false ↔ ∃ resp, o = .ok resp ∧ resp.StatusCode ≤ 299 := by
  cases o with
  | transportErr e => simp [attemptFailed]
  | errWithResp e resp => simp [attemptFailed]
  | ok resp => simp [attemptFailed]

theorem not_returnsAttempt (s : Config) (get : Nat → GetOutcome) (j : Nat)
    (hj : j < s.Retry.toNat) (hprev : ∀ i, i < j → continues (get i) = true)
    (hf : attemptFailed (get j) = true) : ¬ ReturnsAttempt s get j := by
  rintro ⟨hatt, resp, hg, hres⟩
  cases hc : closeOk (get j) with
  | false =>
    obtain ⟨msg, hm⟩ := fetchURL_closeError_at s get j hj hprev hf hc
    rw [hm] at hres
    simp at hres
  | true =>
    have hall : ∀ i, i < j + 1 → continues (get i) = true := by
      intro i hi
      rcases Nat.lt_succ_iff_lt_or_eq.mp hi with h1 | h1
      · exact hprev i h1
      · subst h1; simp [continues, hf, hc]
    obtain ⟨res, tr, he, h1, _⟩ := fetchURL_continue_at s get j hj hall
    rw [he] at hres hatt
    have := h1 _ _ hres
    simp only [attempts_append, attempts_failTrace, attempts_failEvents] at hatt
    omega

/-- C5: when closing the body of a failed response never errors and `n = Retry >= 0`,
`fetchURL` makes exactly `min(n, p)` requests, `p = j + 1` being the 1-based position of the
first outcome that passes the test of line 100; it returns the body and status code of that
response when `p <= n` and the error `FailedToFetchUrl` (no body) when `p > n`; when no
outcome passes, it makes `n` requests and returns `FailedToFetchUrl`. -/
theorem fetchURL_attempts (s : Config) (get : Nat → GetOutcome) (hn : 0 ≤ s.Retry)
    (hclose : ∀ i, closeOk (get i) = true) :
    (∀ j, (∀ i, i < j → attemptFailed (get i) = true) → attemptFailed (get j) = false →
      (attempts (fetchURL s get).2 : Int) = min s.Retry ((j : Int) + 1) ∧
      ((j : Int) + 1 ≤ s.Retry →
        ∃ resp, get j = .ok resp ∧ (fetchURL s get).1 = .ok resp.Body resp.StatusCode) ∧
      (s.Retry < (j : Int) + 1 → (fetchURL s get).1 = .error .FailedToFetchUrl)) ∧
    ((∀ i, attemptFailed (get i) = true) →
      (attempts (fetchURL s get).2 : Int) = s.Retry ∧
      (fetchURL s get).1 = .error .FailedToFetchUrl) := by
  have hnat : ((s.Retry.toNat : Nat) : Int) = s.Retry := Int.toNat_of_nonneg hn
  constructor
  · intro j hfail hsucc
    have hcont : ∀ i, i < j → continues (get i) = true := by
      intro i hi
      simp [continues, hfail i hi, hclose i]
    by_cases hj : j < s.Retry.toNat
    · obtain ⟨resp, hg, _, he⟩ := fetchURL_success_at s get j hj hcont hsucc
      rw [he]
      refine ⟨?_, fun _ => ⟨resp, hg, rfl⟩, fun h => ?_⟩
      · simp only [attempts_append, attempts_failTrace]
        simp only [attempts, List.filter_cons_of_pos, List.filter_nil, List.length_singleton]
        rw [min_eq_right (by omega)]
        push_cast
        rfl
      · omega
    · have he := fetchURL_exhausted s get (fun i hi => hcont i (by omega))
      rw [he]
      refine ⟨?_, fun h => ?_, fun _ => rfl⟩
      · simp only [attempts_failTrace]
        rw [min_eq_left (by omega)]
        exact hnat
      · omega
  · intro hall
    have he := fetchURL_exhausted s get (fun i _ => by simp [continues, hall i, hclose i])
    rw [he]
    exact ⟨by simp only [attempts_failTrace]; exact hnat, rfl⟩

/-- Witness for C5 (`n = 3`): success only on the 2nd call gives 2 requests and that response;
an endpoint that always fails gives 3 requests and `FailedToFetchUrl`; `n = 0` gives no
request and `FailedToFetchUrl`. -/
theorem fetchURL_attempts_witness :
    ((attempts (fetchURL ⟨10, 3, 10⟩ secondCallSucceeds).2 : Int) = min 3 ((1 : Nat) + 1) ∧
      ∃ resp, secondCallSucceeds 1 = .ok resp ∧
        (fetchURL ⟨10, 3, 10⟩ secondCallSucceeds).1 = .ok resp.Body resp.StatusCode) ∧
    ((attempts (fetchURL ⟨10, 3, 10⟩ alwaysFails).2 : Int) = 3 ∧
      (fetchURL ⟨10, 3, 10⟩ alwaysFails).1 = .error .FailedToFetchUrl) ∧
    ((attempts (fetchURL ⟨10, 0, 10⟩ alwaysFails).2 : Int) = 0 ∧
      (fetchURL ⟨10, 0, 10⟩ alwaysFails).1 = .error .FailedToFetchUrl) := by
  have hc : ∀ i, closeOk (secondCallSucceeds i) = true := by
    intro i
    unfold secondCallSucceeds
    split <;> rfl
  have h1 := (fetchURL_attempts ⟨10, 3, 10⟩ secondCallSucceeds (by decide) hc).1 1
    (by decide) (by decide)
  have h2 := (fetchURL_attempts ⟨10, 3, 10⟩ alwaysFails (by decide) (fun _ => rfl)).2
    (fun _ => rfl)
  have h3 := (fetchURL_attempts ⟨10, 0, 10⟩ alwaysFails (by decide) (fun _ => rfl)).2
    (fun _ => rfl)
  exact ⟨⟨h1.1, h1.2.1 (by decide)⟩, h2, h3⟩

/-- C6 as stated fails: a response with status 99 and no transport error is returned as a
success by the first attempt, although 99 is not in `[100,299]`. -/
theorem status_99_returned_as_success :
    ReturnsAttempt ⟨10, 1, 10⟩ (fun _ => okResponse 99) 0 ∧
      claimedSuccess (okResponse 99) = false :=
  ⟨⟨by decide, ⟨99, ⟨.err "no document", none⟩⟩, rfl, by decide⟩, by decide⟩

/-- C6 (amended): an attempt `j` that is reached (`j < Retry`, every earlier attempt failed
and its body closed without error) is returned as the result, with no further attempt, if and
only if there is no error and the status code is at most 299 (no lower bound); status 299 is
returned as success; status 300 is a failure whose body is closed and, when the close
succeeds, is followed by the backoff sleep and, if `j + 1 < Retry`, by attempt `j + 1`. -/
theorem fetchURL_success_iff (s : Config) (get : Nat → GetOutcome) (j : Nat)
    (hj : (j : Int) < s.Retry) (hprev : ∀ i, i < j → continues (get i) = true) :
    (ReturnsAttempt s get j ↔ ∃ resp, get j = .ok resp ∧ resp.StatusCode ≤ 299) ∧
    (∀ resp, get j = .ok resp → resp.StatusCode = 299 → ReturnsAttempt s get j) ∧
    (∀ resp, get j = .ok resp → resp.StatusCode = 300 →
      ¬ ReturnsAttempt s get j ∧ Event.closeBody j ∈ (fetchURL s get).2 ∧
      (resp.Body.closeErr = none →
        Event.sleep (backoff j) ∈ (fetchURL s get).2 ∧
        ((j : Int) + 1 < s.Retry → Event.get (j + 1) ∈ (fetchURL s get).2))) := by
  have hjn : j < s.Retry.toNat := by omega
  have hret : (∃ resp, get j = .ok resp ∧ resp.StatusCode ≤ 299) → ReturnsAttempt s get j := by
    intro h
    obtain ⟨resp, hg, _, he⟩ :=
      fetchURL_success_at s get j hjn hprev ((attemptFailed_false_iff _).mpr h)
    refine ⟨?_, resp, hg, by rw [he]⟩
    rw [he]
    simp only [attempts_append, attempts_failTrace]
    simp [attempts]
  refine ⟨⟨fun h => ?_, hret⟩, fun resp hg h299 => hret ⟨resp, hg, by omega⟩, ?_⟩
  · by_contra hne
    have hf : attemptFailed (get j) = true := by
      cases hb : attemptFailed (get j) with
      | true => rfl
      | false => exact absurd ((attemptFailed_false_iff _).mp hb) hne
    exact not_returnsAttempt s get j hjn hprev hf h
  · intro resp hg h300
    have hf : attemptFailed (get j) = true := by simp [attemptFailed, hg, h300]
    refine ⟨not_returnsAttempt s get j hjn hprev hf, ?_, ?_⟩
    · cases hc : closeOk (get j) with
      | false =>
        obtain ⟨msg, hm⟩ := fetchURL_closeError_at s get j hjn hprev hf hc
        rw [hm]
        simp
      | true =>
        have hall : ∀ i, i < j + 1 → continues (get i) = true := by
          intro i hi
          rcases Nat.lt_succ_iff_lt_or_eq.mp hi with h1 | h1
          · exact hprev i h1
          · subst h1; simp [continues, hf, hc]
        obtain ⟨res, tr, he, _, _⟩ := fetchURL_continue_at s get j hjn hall
        rw [he]
        have := closeBody_mem_failEvents get j resp hg
        simp [this]
    · intro hclose
      have hc : closeOk (get j) = true := by simp [closeOk, hg, hclose]
      have hall : ∀ i, i < j + 1 → continues (get i) = true := by
        intro i hi
        rcases Nat.lt_succ_iff_lt_or_eq.mp hi with h1 | h1
        · exact hprev i h1
        · subst h1; simp [continues, hf, hc]
      obtain ⟨res, tr, he, _, hnext⟩ := fetchURL_continue_at s get j hjn hall
      rw [he]
      refine ⟨?_, fun hlt => ?_⟩
      · have := sleep_mem_failEvents get j
        simp [this]
      · have := hnext (by omega)
        simp [this]

/-- Witness for C6 (amended), `Retry = 2`, statuses 300 then 299: attempt 0 is not returned,
its body is closed, the sleep and attempt 1 follow; attempt 1 is returned. -/
theorem fetchURL_success_iff_witness :
    (¬ ReturnsAttempt ⟨10, 2, 10⟩ redirectThenOk 0 ∧
      Event.closeBody 0 ∈ (fetchURL ⟨10, 2, 10⟩ redirectThenOk).2 ∧
      Event.sleep (backoff 0) ∈ (fetchURL ⟨10, 2, 10⟩ redirectThenOk).2 ∧
      Event.get (0 + 1) ∈ (fetchURL ⟨10, 2, 10⟩ redirectThenOk).2) ∧
    ReturnsAttempt ⟨10, 2, 10⟩ redirectThenOk 1 := by
  have h0 := (fetchURL_success_iff ⟨10, 2, 10⟩ redirectThenOk 0 (by decide) (by decide)).2.2
    ⟨300, ⟨.err "no document", none⟩⟩ rfl rfl
  have h1 := (fetchURL_success_iff ⟨10, 2, 10⟩ redirectThenOk 1 (by decide) (by decide)).2.1
    ⟨299, ⟨.err "no document", none⟩⟩ rfl rfl
  exact ⟨⟨h0.1, h0.2.1, (h0.2.2 rfl).1, (h0.2.2 rfl).2 (by decide)⟩, h1⟩

/-- C10 as stated fails: with `Retry = 1` and an endpoint that always fails, `fetchURL`
makes one attempt and then sleeps one second although no attempt follows. -/
theorem sleeps_after_last_attempt :
    attempts (fetchURL ⟨10, 1, 10⟩ alwaysFails).2 = 1 ∧
      sleeps (fetchURL ⟨10, 1, 10⟩ alwaysFails).2 = [1000000000] ∧
      (fetchURL ⟨10, 1, 10⟩ alwaysFails).1 = .error .FailedToFetchUrl ∧
      ¬ SleepsOnlyBetweenAttempts ⟨10, 1, 10⟩ alwaysFails := by
  refine ⟨by decide, by decide, by decide, ?_⟩
  unfold SleepsOnlyBetweenAttempts
  decide

/-- C10 (amended): for `Retry <= 9223372036` (so that the nanosecond duration fits `int64`),
`fetchURL` sleeps `i + 1` seconds after every failed attempt `i` whose body, if any, closed
without error, whether or not another attempt follows.  If attempts `0..j-1` are such and
attempt `j < Retry` succeeds or fails to close, the call makes `m = j + 1` attempts and sleeps
`m - 1` times, for `1, ..., m-1` seconds; if all `m = Retry` attempts are such, it sleeps `m`
times, for `1, ..., m` seconds, the last sleep being followed by no attempt. -/
theorem fetchURL_sleeps (s : Config) (get : Nat → GetOutcome) (hn : s.Retry ≤ 9223372036)
    (j : Nat) (hprev : ∀ i, i < j → continues (get i) = true) :
    (j < s.Retry.toNat → continues (get j) = false →
      (∃ last, (fetchURL s get).2 = failTrace get 0 j ++ Event.get j :: last ∧ sleeps last = []
        ∧ attempts last = 0) ∧
      attempts (fetchURL s get).2 = j + 1 ∧ sleeps (fetchURL s get).2 = linearSleeps j) ∧
    (j = s.Retry.toNat →
      (fetchURL s get).2 = failTrace get 0 j ∧
      attempts (fetchURL s get).2 = j ∧ sleeps (fetchURL s get).2 = linearSleeps j) := by
  constructor
  · intro hj hstop
    have hjb : (j : Int) ≤ 9223372036 := by omega
    cases hf : attemptFailed (get j) with
    | false =>
      obtain ⟨resp, _, _, he⟩ := fetchURL_success_at s get j hj hprev hf
      rw [he]
      refine ⟨⟨[], rfl, rfl, rfl⟩, ?_, ?_⟩
      · simp only [attempts_append, attempts_failTrace]
        simp [attempts]
      · simp [sleeps_append, sleeps_failTrace_zero get j hjb, sleeps]
    | true =>
      have hc : closeOk (get j) = false := by
        cases hc : closeOk (get j) with
        | false => rfl
        | true => simp [continues, hf, hc] at hstop
      obtain ⟨msg, he⟩ := fetchURL_closeError_at s get j hj hprev hf hc
      rw [he]
      refine ⟨⟨[.closeBody j], rfl, rfl, rfl⟩, ?_, ?_⟩
      · simp only [attempts_append, attempts_failTrace]
        simp [attempts]
      · simp [sleeps_append, sleeps_failTrace_zero get j hjb, sleeps]
  · intro hj
    have hjb : (j : Int) ≤ 9223372036 := by omega
    have he := fetchURL_exhausted s get (fun i hi => hprev i (by omega))
    rw [he, ← hj]
    exact ⟨rfl, attempts_failTrace get j 0, sleeps_failTrace_zero get j hjb⟩

/-- Witness for C10 (amended), `Retry = 3`: an endpoint that always fails gives 3 attempts and
the sleeps 1, 2, 3 seconds; success on the 2nd call gives 2 attempts and one sleep of 1
second. -/
theorem fetchURL_sleeps_witness :
    (attempts (fetchURL ⟨10, 3, 10⟩ alwaysFails).2 = 3 ∧
      sleeps (fetchURL ⟨10, 3, 10⟩ alwaysFails).2 = linearSleeps 3) ∧
    (attempts (fetchURL ⟨10, 3, 10⟩ secondCallSucceeds).2 = 1 + 1 ∧
      sleeps (fetchURL ⟨10, 3, 10⟩ secondCallSucceeds).2 = linearSleeps 1) :=
  ⟨((fetchURL_sleeps ⟨10, 3, 10⟩ alwaysFails (by decide) 3 (fun _ _ => rfl)).2 rfl).2,
   ((fetchURL_sleeps ⟨10, 3, 10⟩ secondCallSucceeds (by decide) 1 (by decide)).1
      (by decide) (by decide)).2⟩

/-! ## Theorems about `parseHtml` -/

theorem foldl_overwrite {α β : Type} (p : α → Bool) (f : α → β) (l : List α) :
    ∀ d : β, l.foldl (fun d a => if p a = true then f a else d) d
      = (((l.filter p).getLast?).map f).getD d := by
  induction l using List.reverseRecOn with
  | nil => intro d; simp
  | append_singleton l a ih =>
    intro d
    rw [List.foldl_append, List.filter_append]
    cases hp : p a with
    | true => simp [hp, List.filter_cons]
    | false => simp [hp, List.filter_cons, ih d]

theorem foldl_apply_once {α β : Type} (q : α → Bool) (F : β → β) (hF : ∀ d, F (F d) = F d)
    (l : List α) :
    ∀ d : β, l.foldl (fun d a => if q a = true then F d else d) d
      = if l.any q = true then F d else d := by
  induction l with
  | nil => intro d; simp
  | cons a l ih =>
    intro d
    rw [List.foldl_cons, ih]
    cases hq : q a with
    | true => simp [hq, hF]
    | false => simp [hq]

theorem contentLoop_eq (attrs : List Attribute) (d : String) :
    contentLoop attrs d
      = (((attrs.filter fun a => decide (a.Key = "content")).getLast?).map Attribute.Val).getD d := by
  rw [← foldl_overwrite (fun a : Attribute => decide (a.Key = "content")) Attribute.Val
    attrs d]
  unfold contentLoop
  congr 1
  funext d a
  simp

theorem contentLoop_idem (attrs : List Attribute) (d : String) :
    contentLoop attrs (contentLoop attrs d) = contentLoop attrs d := by
  rw [contentLoop_eq attrs (contentLoop attrs d), contentLoop_eq attrs d]
  cases (attrs.filter fun a => decide (a.Key = "content")).getLast? <;> rfl

theorem metaLoop_eq (attrs : List Attribute) (d : String) :
    metaLoop attrs d
      = if (attrs.any fun a => decide (a.Key = "name" ∧ a.Val = "description")) = true
        then contentLoop attrs d else d := by
  rw [← foldl_apply_once (fun a : Attribute => decide (a.Key = "name" ∧ a.Val = "description"))
    (contentLoop attrs) (contentLoop_idem attrs) attrs d]
  unfold metaLoop
  congr 1
  funext d a
  simp

theorem metaLoop_descStep (t : NodeType) (a : Atom) (data : String) (attrs : List Attribute)
    (fc ns : Node) (d : String) (hm : isMeta (.mk t a data attrs fc ns) = true) :
    metaLoop attrs d = descStep d (.mk t a data attrs fc ns) := by
  rw [metaLoop_eq, contentLoop_eq]
  unfold descStep isDescriptionMeta hasNameDescription hasContent contentValue
  simp only [hm, attrsOf, Bool.true_and, Bool.and_eq_true]
  by_cases h1 : (attrs.any fun a => decide (a.Key = "name" ∧ a.Val = "description")) = true
  · by_cases h2 : (attrs.any fun a => decide (a.Key = "content")) = true
    · simp only [h1, h2, and_self, if_true]
      cases hgl : (attrs.filter fun a => decide (a.Key = "content")).getLast? with
      | some x => rfl
      | none =>
        rw [List.getLast?_eq_none_iff, List.filter_eq_nil_iff] at hgl
        obtain ⟨x, hx, hk⟩ := List.any_eq_true.mp h2
        exact absurd hk (hgl x hx)
    · simp only [h1, h2, and_false, if_true, if_false]
      have : (attrs.filter fun a => decide (a.Key = "content")) = [] := by
        rw [List.filter_eq_nil_iff]
        intro x hx hk
        exact h2 (List.any_eq_true.mpr ⟨x, hx, hk⟩)
      rw [this]
      rfl
  · simp only [h1, false_and, if_false]
    rfl

theorem descStep_of_not_meta (n : Node) (d : String) (h : isMeta n = false) :
    descStep d n = d := by
  simp [descStep, isDescriptionMeta, h]

theorem headStep_ret (st st1 : String × String) (n : Node) (h : headStep st n = .ret st1) :
    st1.2 = descStep st.2 n := by
  cases n with
  | nil => simp [headStep] at h
  | mk t a data attrs fc ns =>
    simp only [headStep] at h
    by_cases h1 : t = .ElementNode ∧ a = .Title
    · rw [if_pos h1] at h
      have hnm : isMeta (.mk t a data attrs fc ns) = false := by
        simp [isMeta, h1.2]
      cases fc with
      | nil => simp at h
      | mk t2 a2 d2 at2 fc2 ns2 =>
        simp only [GoResult.ret.injEq] at h
        rw [descStep_of_not_meta _ _ hnm, ← h]
    · rw [if_neg h1] at h
      by_cases h2 : t = .ElementNode ∧ a = .Meta
      · rw [if_pos h2] at h
        simp only [GoResult.ret.injEq] at h
        have hm : isMeta (.mk t a data attrs fc ns) = true := by simp [isMeta, h2]
        rw [← metaLoop_descStep t a data attrs fc ns st.2 hm, ← h]
      · rw [if_neg h2] at h
        simp only [GoResult.ret.injEq] at h
        have hnm : isMeta (.mk t a data attrs fc ns) = false := by
          simpa [isMeta] using h2
        rw [descStep_of_not_meta _ _ hnm, ← h]

theorem headStep_total (st : String × String) (n : Node) (hn : n ≠ .nil)
    (ht : (isTitle n && childless n) = false) : ∃ st1, headStep st n = .ret st1 := by
  cases n with
  | nil => exact absurd rfl hn
  | mk t a data attrs fc ns =>
    simp only [headStep]
    by_cases h1 : t = .ElementNode ∧ a = .Title
    · rw [if_pos h1]
      cases fc with
      | nil => simp [isTitle, childless, h1] at ht
      | mk t2 a2 d2 at2 fc2 ns2 => exact ⟨_, rfl⟩
    · rw [if_neg h1]
      by_cases h2 : t = .ElementNode ∧ a = .Meta
      · rw [if_pos h2]; exact ⟨_, rfl⟩
      · rw [if_neg h2]; exact ⟨_, rfl⟩

theorem headLoop_ret (l : List Node) :
    ∀ st st1 : String × String, headLoop l st = .ret st1 → st1.2 = l.foldl descStep st.2 := by
  induction l with
  | nil => intro st st1 h; simp [headLoop] at h; simp [h]
  | cons n l ih =>
    intro st st1 h
    rw [headLoop] at h
    cases hs : headStep st n with
    | panicked msg => simp [hs] at h
    | ret st2 =>
      rw [hs] at h
      simp only at h
      rw [ih st2 st1 h, headStep_ret st st2 n hs, List.foldl_cons]

theorem headLoop_total (l : List Node) (hn : ∀ n ∈ l, n ≠ .nil)
    (ht : ∀ n ∈ l, (isTitle n && childless n) = false) :
    ∀ st : String × String, ∃ st1, headLoop l st = .ret st1 := by
  induction l with
  | nil => intro st; exact ⟨st, rfl⟩
  | cons n l ih =>
    intro st
    obtain ⟨st2, hs⟩ := headStep_total st n (hn n (List.mem_cons_self _ _))
      (ht n (List.mem_cons_self _ _))
    obtain ⟨st1, h1⟩ := ih (fun m hm => hn m (List.mem_cons_of_mem _ hm))
      (fun m hm => ht m (List.mem_cons_of_mem _ hm)) st2
    exact ⟨st1, by rw [headLoop, hs]; exact h1⟩

theorem foldl_descStep (l : List Node) (d : String) :
    l.foldl descStep d = (((l.filter isDescriptionMeta).getLast?).map contentValue).getD d := by
  rw [← foldl_overwrite isDescriptionMeta contentValue l d]
  rfl

theorem docLoop_no_head (l : List Node) (h : l.filter isHead = []) :
    ∀ st, docLoop l st = .ret st := by
  induction l with
  | nil => intro st; rfl
  | cons n l ih =>
    intro st
    have hn : isHead n = false := by
      cases hh : isHead n with
      | false => rfl
      | true => simp [List.filter_cons, hh] at h
    have hl : l.filter isHead = [] := by simpa [List.filter_cons, hn] using h
    rw [docLoop]
    simp [hn, ih hl]

theorem docLoop_one_head (l : List Node) (head : Node) (h : l.filter isHead = [head]) :
    ∀ st, docLoop l st = headLoop head.Descendants st := by
  induction l with
  | nil => simp at h
  | cons n l ih =>
    intro st
    rw [docLoop]
    cases hh : isHead n with
    | false =>
      have hl : l.filter isHead = [head] := by simpa [List.filter_cons, hh] using h
      simp [ih hl]
    | true =>
      have hl : n = head ∧ l.filter isHead = [] := by simpa [List.filter_cons, hh] using h
      simp only [if_true]
      rw [hl.1]
      cases hr : headLoop head.Descendants st with
      | ret st1 => simp [docLoop_no_head l hl.2]
      | panicked msg => rfl

theorem forest_ne_nil (x : Node) : ∀ n ∈ forest x, n ≠ .nil := by
  induction x with
  | nil => intro n hn; simp [forest] at hn
  | mk t a d attrs fc ns ih1 ih2 =>
    intro n hn
    simp only [forest, List.mem_cons, List.mem_append] at hn
    rcases hn with h | h | h
    · rw [h]; exact Node.noConfusion
    · exact ih1 n h
    · exact ih2 n h

theorem descendants_ne_nil (x : Node) : ∀ n ∈ x.Descendants, n ≠ .nil := by
  cases x with
  | nil => intro n hn; simp [Node.Descendants] at hn
  | mk t a d attrs fc ns => exact forest_ne_nil fc

theorem specDescription_one_head (root head : Node) (hh : heads root = [head]) :
    specDescription root = head.Descendants.foldl descStep "" := by
  rw [foldl_descStep]
  unfold specDescription
  rw [hh]
  simp only [List.head?_cons]
  cases (head.Descendants.filter isDescriptionMeta).getLast? <;> rfl

theorem parseHtml_eq_docLoop (root : Node) (closeErr : Option String) :
    parseHtml ⟨.ok root, closeErr⟩
      = match docLoop root.Descendants ("", "") with
        | .ret st => .ret (st.1, st.2, none)
        | .panicked msg => .panicked msg := rfl

/-- C7: for a document tree with at most one `head` element (`html.Parse` builds exactly
one), every result `parseHtml` returns carries as description the `content` value of the last
`<meta>` element, in depth-first order among the descendants of `head`, that has an attribute
`name="description"` and a `content` attribute, and the empty string when there is none;
`parseHtml` does return whenever no `<title>` beneath `head` is childless; on the tree of
`<html><head><title>T</title><meta name="description" content="D"></head></html>` the result
is title `T` and description `D`. -/
theorem parseHtml_description (root : Node) (closeErr : Option String)
    (h1 : (heads root).length ≤ 1) :
    (∀ t d e, parseHtml ⟨.ok root, closeErr⟩ = .ret (t, d, e) → d = specDescription root) ∧
    (titlesHaveChild root = true →
      ∃ t, parseHtml ⟨.ok root, closeErr⟩ = .ret (t, specDescription root, none)) ∧
    parseHtml (bodyOf exampleDoc) = .ret ("T", "D", none) := by
  refine ⟨?_, ?_, by decide⟩
  · intro t d e h
    rw [parseHtml_eq_docLoop] at h
    cases hh : heads root with
    | nil =>
      rw [docLoop_no_head _ hh] at h
      simp only [GoResult.ret.injEq, Prod.mk.injEq] at h
      simp [specDescription, hh, ← h.2.1]
    | cons head tl =>
      cases tl with
      | cons x y => rw [hh] at h1; simp at h1
      | nil =>
        rw [docLoop_one_head _ head hh] at h
        cases hl : headLoop head.Descendants ("", "") with
        | panicked msg => simp [hl] at h
        | ret st =>
          rw [hl] at h
          simp only [GoResult.ret.injEq, Prod.mk.injEq] at h
          rw [specDescription_one_head root head hh, ← h.2.1]
          exact headLoop_ret _ _ _ hl
  · intro ht
    rw [parseHtml_eq_docLoop]
    cases hh : heads root with
    | nil =>
      rw [docLoop_no_head _ hh]
      exact ⟨"", by simp [specDescription, hh]⟩
    | cons head tl =>
      cases tl with
      | cons x y => rw [hh] at h1; simp at h1
      | nil =>
        rw [docLoop_one_head _ head hh]
        have htl : ∀ n ∈ head.Descendants, (isTitle n && childless n) = false := by
          intro n hn
          unfold titlesHaveChild at ht
          rw [hh] at ht
          simp only [List.all_cons, List.all_nil, Bool.and_true, List.all_eq_true] at ht
          have := ht n hn
          cases h3 : isTitle n <;> cases h4 : childless n <;> simp_all
        obtain ⟨st, hl⟩ := headLoop_total head.Descendants (descendants_ne_nil head) htl ("", "")
        rw [hl, specDescription_one_head root head hh, ← headLoop_ret _ _ _ hl]
        exact ⟨st.1, rfl⟩

/-- Witness for C7 on the tree of
`<html><head><title>T</title><meta name="description" content="D"></head></html>`. -/
theorem parseHtml_description_witness :
    ∃ t, parseHtml ⟨.ok exampleDoc, none⟩ = .ret (t, specDescription exampleDoc, none) :=
  (parseHtml_description exampleDoc none (by decide)).2.1 (by decide)

/-- C8 fails on the code: on the tree of `<html><head><title></title></head></html>`, whose
`title` element has no child, `parseHtml` does not return the empty title but panics on the
nil `FirstChild`. -/
theorem parseHtml_empty_title_panics :
    parseHtml (bodyOf emptyTitleDoc) = .panicked "nil pointer dereference" := by
  decide

/-! ## Theorems about `scrapeUrl` -/

/-- C4 fails on the code: when the fetch succeeds with status 200 and `html.Parse` returns an
error, `scrapeUrl` still emits a record (with empty title and description) before it signals
completion once; the error returned by `parseHtml` is never inspected. -/
theorem scrapeUrl_emits_on_parse_error :
    scrapeUrl ⟨10, 3, 10⟩ (fun _ => .ok ⟨200, ⟨.err "unexpected EOF", none⟩⟩)
        "2024-01-01" "http://a"
      = [.sendOut ["2024-01-01", "http://a", "200", "", ""], .sendSig, .closeBody] := by
  decide

theorem scrapeUrl_shape (s : Config) (get : Nat → GetOutcome) (date url : String) :
    scrapeUrl s get date url = [.sendSig] ∨
    (∃ msg, scrapeUrl s get date url = [.closeBody, .panic msg]) ∨
    (∃ status title description,
      scrapeUrl s get date url
        = [.sendOut [date, url, status, title, description], .sendSig, .closeBody]) := by
  unfold scrapeUrl
  cases hf : (fetchURL s get).1 with
  | error e => exact Or.inl rfl
  | ok buf statusCode =>
    simp only
    cases hp : parseHtml buf with
    | panicked msg => simp
    | ret r =>
      obtain ⟨t, d, e⟩ := r
      simp

/-! ## Tasks -/

theorem launchProg_shape (s : Config) (env : Nat → TaskEnv) (input : List String) (i : Nat) :
    ProgShape (input.getD i "") (launchProg s env input i) := by
  unfold launchProg ProgShape
  rcases scrapeUrl_shape s (env i).get (env i).date (input.getD i "") with h | ⟨m, h⟩ | ⟨a, b, c, h⟩
  · exact Or.inl h
  · exact Or.inr (Or.inl ⟨m, h⟩)
  · exact Or.inr (Or.inr ⟨_, by simp [urlField], h⟩)

theorem shape_length (url : String) (prog : List TaskAction) (h : ProgShape url prog) :
    prog.length ≤ 3 := by
  rcases h with h | ⟨m, h⟩ | ⟨r, _, h⟩ <;> simp [h]

theorem shape_sendSig (t : Task) (h : ProgShape t.url t.prog)
    (ha : t.prog.get? t.pos = some .sendSig) : t.signalled = false := by
  obtain ⟨url, prog, pos⟩ := t
  rcases h with h | ⟨m, h⟩ | ⟨r, _, h⟩ <;> simp only at h <;> subst h <;>
    rcases pos with _ | _ | _ | pos <;> simp [Task.signalled] at ha ⊢

theorem shape_sendOut (t : Task) (h : ProgShape t.url t.prog) (r : List String)
    (ha : t.prog.get? t.pos = some (.sendOut r)) : t.signalled = false ∧ urlField r = t.url := by
  obtain ⟨url, prog, pos⟩ := t
  rcases h with h | ⟨m, h⟩ | ⟨r1, hr, h⟩ <;> simp only at h <;> subst h <;>
    rcases pos with _ | _ | _ | pos <;> simp [Task.signalled] at ha ⊢
  rw [← ha]; exact hr

theorem shape_next (t : Task) (h : ProgShape t.url t.prog) (hs : TaskAction.sendSig ∈ t.prog)
    (hu : t.signalled = false) :
    t.prog.get? t.pos = some .sendSig ∨ ∃ r, t.prog.get? t.pos = some (.sendOut r) := by
  obtain ⟨url, prog, pos⟩ := t
  rcases h with h | ⟨m, h⟩ | ⟨r1, hr, h⟩ <;> simp only at h <;> subst h <;>
    rcases pos with _ | _ | _ | pos <;> simp [Task.signalled] at hs hu ⊢

theorem shape_no_panic (url : String) (prog : List TaskAction) (h : ProgShape url prog)
    (hs : TaskAction.sendSig ∈ prog) (msg : String) : TaskAction.panic msg ∉ prog := by
  rcases h with h | ⟨m, h⟩ | ⟨r1, hr, h⟩ <;> subst h <;> simp at hs ⊢

theorem advance_signalled (t : Task) (a : TaskAction) (ha : t.prog.get? t.pos = some a) :
    t.advance.signalled = (t.signalled || decide (a = .sendSig)) := by
  obtain ⟨url, prog, pos⟩ := t
  simp only [List.get?_eq_getElem?] at ha
  simp only [Task.signalled, Task.advance, List.take_succ, ha, Option.toList, List.mem_append,
    List.mem_singleton, Bool.decide_or]
  congr 1
  simp [eq_comm]

theorem advance_records (t : Task) (a : TaskAction) (ha : t.prog.get? t.pos = some a) :
    recordsOf (t.advance.prog.take t.advance.pos)
      = recordsOf (t.prog.take t.pos) ++ recordsOf [a] := by
  obtain ⟨url, prog, pos⟩ := t
  simp only [List.get?_eq_getElem?] at ha
  simp [recordsOf, Task.advance, List.take_succ, ha, Option.toList]

theorem advance_pending (t : Task) (a : TaskAction) (ha : t.prog.get? t.pos = some a) :
    t.advance.prog.length - t.advance.pos + 1 = t.prog.length - t.pos := by
  obtain ⟨url, prog, pos⟩ := t
  simp only [List.get?_eq_getElem?] at ha
  have : pos < prog.length := by
    by_contra hc
    rw [List.getElem?_eq_none (by omega)] at ha
    exact Option.noConfusion ha
  simp only [Task.advance]
  omega

theorem get?_split {α : Type} (l : List α) :
    ∀ (i : Nat) (t : α), l.get? i = some t → ∀ t1 : α,
      ∃ l1 l2, l = l1 ++ t :: l2 ∧ l.set i t1 = l1 ++ t1 :: l2 := by
  induction l with
  | nil => intro i t h; simp at h
  | cons x l ih =>
    intro i t h t1
    cases i with
    | zero =>
      simp only [List.get?_cons_zero, Option.some.injEq] at h
      exact ⟨[], l, by simp [h], by simp⟩
    | succ i =>
      simp only [List.get?_cons_succ] at h
      obtain ⟨l1, l2, h1, h2⟩ := ih i t h t1
      exact ⟨x :: l1, l2, by simp [h1], by simp [h2]⟩

/-! ## The invariant of `Scrape` -/

theorem unsignalled_append (l1 l2 : List Task) :
    unsignalled (l1 ++ l2) = unsignalled l1 + unsignalled l2 := by
  simp [unsignalled]

theorem unsignalled_cons (t : Task) (l : List Task) :
    unsignalled (t :: l) = (if t.signalled then 0 else 1) + unsignalled l := by
  cases h : t.signalled <;> simp [unsignalled, List.filter_cons, h]
  omega

theorem emitted_append (l1 l2 : List Task) : emitted (l1 ++ l2) = emitted l1 ++ emitted l2 := by
  simp [emitted]

theorem emitted_cons (t : Task) (l : List Task) :
    emitted (t :: l) = recordsOf (t.prog.take t.pos) ++ emitted l := by
  simp [emitted]

theorem pendingActions_append (l1 l2 : List Task) :
    pendingActions (l1 ++ l2) = pendingActions l1 + pendingActions l2 := by
  simp [pendingActions]

theorem pendingActions_cons (t : Task) (l : List Task) :
    pendingActions (t :: l) = (t.prog.length - t.pos) + pendingActions l := by
  simp [pendingActions]

theorem urls_index (input : List String) (urls : List String) (u : String) (rest : List String)
    (h : urls ++ [u] ++ rest = input) :
    urls.length < input.length ∧ input.getD urls.length "" = u := by
  subst h
  constructor
  · simp
  · rw [List.getD_eq_getElem?_getD, List.append_assoc, List.getElem?_append_right (le_refl _)]
    simp

theorem inv_init (s : Config) (env : Nat → TaskEnv) (input : List String) :
    Inv s env input (initState input) := by
  constructor <;> simp [initState, unsignalled, pcAdjust, pcPending, inputSeen, pastDrain, emitted]

theorem unsignalled_launch (tasks : List Task) (url : String) (prog : List TaskAction) :
    unsignalled (tasks ++ [⟨url, prog, 0⟩]) = unsignalled tasks + 1 := by
  rw [unsignalled_append, unsignalled_cons]
  simp [Task.signalled, unsignalled]

theorem emitted_launch (tasks : List Task) (url : String) (prog : List TaskAction) :
    emitted (tasks ++ [⟨url, prog, 0⟩]) = emitted tasks := by
  rw [emitted_append, emitted_cons]
  simp [emitted, recordsOf]

theorem inv_schedStep (s : Config) (env : Nat → TaskEnv) (input : List String) (st st1 : State)
    (hinv : Inv s env input st) (hstep : schedStep s env st = some st1) :
    Inv s env input st1 := by
  obtain ⟨pc, c, inp, tasks, out, sr, sc, oc, cr⟩ := st
  obtain ⟨h1, h2, h3, h4, h5, h6, h7, h8, h9, h10, h11, h12⟩ := hinv
  simp only at h1 h2 h3 h4 h5 h6 h7 h8 h9 h10 h11 h12
  cases pc with
  | top =>
    simp only [schedStep, Option.some.injEq] at hstep
    subst hstep
    simp only [pcAdjust, pcPending, inputSeen, pastDrain] at h1 h2
    by_cases hk : c ≥ s.ParallelReqCount
    · simp only [hk, if_true]
      exact ⟨h1, h2, h3, h4, by simp [inputSeen], by simp [pastDrain], by simpa using h7,
        by simpa using h8, fun _ => hk, by simp, h11, h12⟩
    · simp only [hk, if_false]
      exact ⟨h1, h2, h3, h4, by simp [inputSeen], by simp [pastDrain], by simpa using h7,
        by simpa using h8, by simp, by simp, h11, h12⟩
  | waitSig => simp [schedStep] at hstep
  | decr =>
    simp only [schedStep, Option.some.injEq] at hstep
    subst hstep
    simp only [pcAdjust, pcPending, inputSeen, pastDrain] at h1 h2
    exact ⟨by simp only [pcAdjust]; omega, h2, h3, h4, by simp [inputSeen], by simp [pastDrain],
      by simpa using h7, by simpa using h8, by simp, by simp, h11, h12⟩
  | recvIn =>
    simp only [pcAdjust, pcPending, inputSeen, pastDrain] at h1 h2
    cases inp with
    | nil =>
      simp only [schedStep, Option.some.injEq] at hstep
      subst hstep
      exact ⟨h1, h2, h3, h4, by simp, by simp [pastDrain], by simpa using h7,
        by simpa using h8, by simp, by simp, h11, h12⟩
    | cons u rest =>
      simp only [schedStep, Option.some.injEq] at hstep
      subst hstep
      exact ⟨h1, by simpa [pcPending] using h2, h3, h4, by simp [inputSeen], by simp [pastDrain],
        by simpa using h7, by simpa using h8, by simp, by simp, h11, h12⟩
  | incr u =>
    simp only [schedStep, Option.some.injEq] at hstep
    subst hstep
    simp only [pcAdjust, pcPending, inputSeen, pastDrain] at h1 h2
    exact ⟨by simp only [pcAdjust]; omega, h2, h3, h4, by simp [inputSeen], by simp [pastDrain],
      by simpa using h7, by simpa using h8, by simp, by simp, h11, h12⟩
  | spawn u =>
    simp only [schedStep, Option.some.injEq] at hstep
    subst hstep
    simp only [pcAdjust, pcPending, inputSeen, pastDrain] at h1 h2
    obtain ⟨hlt, hget⟩ := urls_index input (tasks.map Task.url) u inp h2
    simp only [List.length_map] at hlt hget
    refine ⟨?_, ?_, ?_, ?_, by simp [inputSeen], by simp [pastDrain], by simpa using h7,
      by simpa using h8, by simp, by simp, ?_, ?_⟩
    · simp only [unsignalled_launch, pcAdjust]
      push_cast
      omega
    · simpa [pcPending] using h2
    · intro t ht
      rcases List.mem_append.mp ht with h | h
      · exact h3 t h
      · rw [List.mem_singleton] at h
        subst h
        exact ⟨tasks.length, hlt, hget.symm, by simp only [launchProg, hget]⟩
    · simp only [unsignalled_launch, List.length_append, List.length_singleton]
      omega
    · simpa only [emitted_launch] using h11
    · intro hc
      obtain ⟨t, ht, m, hm⟩ := h12 hc
      exact ⟨t, List.mem_append_left _ ht, m, hm⟩
  | drainCheck =>
    simp only [schedStep, Option.some.injEq] at hstep
    subst hstep
    simp only [pcAdjust, pcPending, inputSeen, pastDrain] at h1 h2 h5
    by_cases hk : c > 0
    · simp only [hk, if_true]
      exact ⟨h1, h2, h3, h4, fun _ => h5 trivial, by simp [pastDrain], by simpa using h7,
        by simpa using h8, by simp, fun _ => hk, h11, h12⟩
    · simp only [hk, if_false]
      exact ⟨h1, h2, h3, h4, fun _ => h5 trivial, fun _ => (by omega : c = 0), by simpa using h7,
        by simpa using h8, by simp, by simp, h11, h12⟩
  | drainWait => simp [schedStep] at hstep
  | drainDecr =>
    simp only [schedStep, Option.some.injEq] at hstep
    subst hstep
    simp only [pcAdjust, pcPending, inputSeen, pastDrain] at h1 h2 h5
    by_cases hk : c - 1 = 0
    · simp only [hk, if_true]
      exact ⟨by simp only [pcAdjust]; omega, h2, h3, h4, fun _ => h5 trivial, fun _ => rfl,
        by simpa using h7, by simpa using h8, by simp, by simp, h11, h12⟩
    · simp only [hk, if_false]
      exact ⟨by simp only [pcAdjust]; omega, h2, h3, h4, fun _ => h5 trivial, by simp [pastDrain],
        by simpa using h7, by simpa using h8, by simp, fun _ => (by omega : 0 < c - 1), h11, h12⟩
  | closeSig =>
    simp only [schedStep, Option.some.injEq] at hstep
    subst hstep
    simp only [pcAdjust, pcPending, inputSeen, pastDrain] at h1 h2 h5 h6
    exact ⟨h1, h2, h3, h4, fun _ => h5 trivial, fun _ => h6 trivial, by simp,
      by simpa using h8, by simp, by simp, h11, h12⟩
  | closeOut =>
    simp only [schedStep, Option.some.injEq] at hstep
    subst hstep
    simp only [pcAdjust, pcPending, inputSeen, pastDrain] at h1 h2 h5 h6
    have hsc : sc = true := h7.mpr (Or.inl rfl)
    exact ⟨h1, h2, h3, h4, fun _ => h5 trivial, fun _ => h6 trivial, by simp [hsc],
      by simp, by simp, by simp, h11, h12⟩
  | done => simp [schedStep] at hstep


theorem unsignalled_set (tasks : List Task) (i : Nat) (t t1 : Task)
    (h : tasks.get? i = some t) :
    unsignalled (tasks.set i t1) + (if t.signalled then 0 else 1)
      = unsignalled tasks + (if t1.signalled then 0 else 1) := by
  obtain ⟨l1, l2, h1, h2⟩ := get?_split tasks i t h t1
  rw [h2, h1]
  simp only [unsignalled_append, unsignalled_cons]
  omega

theorem emitted_set (tasks : List Task) (i : Nat) (t t1 : Task) (extra : List (List String))
    (h : tasks.get? i = some t)
    (hr : recordsOf (t1.prog.take t1.pos) = recordsOf (t.prog.take t.pos) ++ extra) :
    (emitted tasks ++ extra).Perm (emitted (tasks.set i t1)) := by
  obtain ⟨l1, l2, h1, h2⟩ := get?_split tasks i t h t1
  rw [h2, h1]
  simp only [emitted_append, emitted_cons, hr, List.append_assoc]
  apply List.Perm.append_left
  apply List.Perm.append_left
  exact List.perm_append_comm

theorem pendingActions_set (tasks : List Task) (i : Nat) (t t1 : Task)
    (h : tasks.get? i = some t)
    (hr : t1.prog.length - t1.pos + 1 = t.prog.length - t.pos) :
    pendingActions (tasks.set i t1) + 1 = pendingActions tasks := by
  obtain ⟨l1, l2, h1, h2⟩ := get?_split tasks i t h t1
  rw [h2, h1]
  simp only [pendingActions_append, pendingActions_cons]
  omega

theorem urls_set (tasks : List Task) (i : Nat) (t t1 : Task)
    (h : tasks.get? i = some t) (hu : t1.url = t.url) :
    (tasks.set i t1).map Task.url = tasks.map Task.url := by
  obtain ⟨l1, l2, h1, h2⟩ := get?_split tasks i t h t1
  rw [h2, h1]
  simp [hu]

theorem nextAction_some (st : State) (i : Nat) (t : Task) (a : TaskAction)
    (h : nextAction st i = some (t, a)) :
    st.tasks.get? i = some t ∧ t.prog.get? t.pos = some a := by
  unfold nextAction at h
  cases h1 : st.tasks.get? i with
  | none => rw [h1] at h; exact Option.noConfusion h
  | some t1 =>
    rw [h1] at h
    simp only at h
    cases h2 : t1.prog.get? t1.pos with
    | none => rw [h2] at h; exact Option.noConfusion h
    | some a1 =>
      rw [h2] at h
      simp only [Option.some.injEq, Prod.mk.injEq] at h
      obtain ⟨rfl, rfl⟩ := h
      exact ⟨rfl, h2⟩


theorem mem_of_get? {α : Type} (l : List α) (i : Nat) (t : α) (h : l.get? i = some t) : t ∈ l := by
  obtain ⟨l1, l2, h1, _⟩ := get?_split l i t h t
  rw [h1]
  simp

theorem inv_shape (s : Config) (env : Nat → TaskEnv) (input : List String) (st : State)
    (hinv : Inv s env input st) (t : Task) (ht : t ∈ st.tasks) : ProgShape t.url t.prog := by
  obtain ⟨i, _, hu, hp⟩ := hinv.progs t ht
  rw [hu, hp]
  exact launchProg_shape s env input i

theorem signalled_of_unsignalled_zero (tasks : List Task) (h : unsignalled tasks = 0)
    (t : Task) (ht : t ∈ tasks) : t.signalled = true := by
  unfold unsignalled at h
  rw [List.length_eq_zero, List.filter_eq_nil_iff] at h
  have := h t ht
  simpa using this

theorem progs_set (s : Config) (env : Nat → TaskEnv) (input : List String) (tasks : List Task)
    (i : Nat) (t : Task)
    (h3 : ∀ t ∈ tasks, ∃ i, i < input.length ∧ t.url = input.getD i "" ∧
      t.prog = launchProg s env input i)
    (hget : tasks.get? i = some t) :
    ∀ t1 ∈ tasks.set i t.advance, ∃ i, i < input.length ∧ t1.url = input.getD i "" ∧
      t1.prog = launchProg s env input i := by
  intro t1 ht1
  rcases List.mem_or_eq_of_mem_set ht1 with h | h
  · exact h3 t1 h
  · subst h
    exact h3 t (mem_of_get? _ _ _ hget)

theorem inv_advance (s : Config) (env : Nat → TaskEnv) (input : List String) (st : State)
    (hinv : Inv s env input st) (hcr : st.crashed = false) (i : Nat) (t : Task) (a : TaskAction)
    (hget : st.tasks.get? i = some t) (ha : t.prog.get? t.pos = some a) (hne : a ≠ .sendSig)
    (out1 : List (List String)) (hout : out1 = st.out ++ recordsOf [a]) :
    Inv s env input { st with out := out1, tasks := st.tasks.set i t.advance } := by
  obtain ⟨pc, c, inp, tasks, out, sr, sc, oc, cr⟩ := st
  obtain ⟨h1, h2, h3, h4, h5, h6, h7, h8, h9, h10, h11, h12⟩ := hinv
  simp only at h1 h2 h3 h4 h5 h6 h7 h8 h9 h10 h11 h12 hget hcr hout
  have hsig : t.advance.signalled = t.signalled := by
    rw [advance_signalled t a ha]
    simp [hne]
  have hun : unsignalled (tasks.set i t.advance) = unsignalled tasks := by
    have := unsignalled_set tasks i t t.advance hget
    rw [hsig] at this
    omega
  refine ⟨?_, ?_, progs_set s env input tasks i t h3 hget, ?_, h5, h6, h7, h8, h9, h10, ?_, ?_⟩
  · simp only [hun]; exact h1
  · simp only [urls_set tasks i t t.advance hget rfl]; exact h2
  · simp only [hun, List.length_set]; exact h4
  · simp only [hout]
    exact (List.Perm.append_right _ h11).trans
      (emitted_set tasks i t t.advance _ hget (advance_records t a ha))
  · intro hc
    simp only at hc
    rw [hcr] at hc
    exact Bool.noConfusion hc

theorem inv_signal (s : Config) (env : Nat → TaskEnv) (input : List String) (st : State)
    (hinv : Inv s env input st) (hcr : st.crashed = false) (i : Nat) (t : Task)
    (hget : st.tasks.get? i = some t) (ha : t.prog.get? t.pos = some .sendSig)
    (pc1 : Pc) (hadj0 : pcAdjust st.pc = 0) (hadj : pcAdjust pc1 = 1)
    (hpend : pcPending pc1 = pcPending st.pc)
    (hseen : inputSeen pc1 = inputSeen st.pc) (hpast : pastDrain pc1 = false)
    (hpc0 : st.pc ≠ .closeOut ∧ st.pc ≠ .done)
    (hpc : pc1 ≠ .closeOut ∧ pc1 ≠ .done ∧ pc1 ≠ .waitSig ∧ pc1 ≠ .drainWait) :
    Inv s env input { st with
      tasks := st.tasks.set i t.advance, sigReceived := st.sigReceived + 1, pc := pc1 } := by
  have hshape := inv_shape s env input st hinv t (mem_of_get? _ _ _ hget)
  obtain ⟨pc, c, inp, tasks, out, sr, sc, oc, cr⟩ := st
  obtain ⟨h1, h2, h3, h4, h5, h6, h7, h8, h9, h10, h11, h12⟩ := hinv
  simp only at h1 h2 h3 h4 h5 h6 h7 h8 h9 h10 h11 h12 hget hcr hadj0 hpend hseen hpc0
  have hs0 : t.signalled = false := shape_sendSig t hshape ha
  have hs1 : t.advance.signalled = true := by
    rw [advance_signalled t _ ha]
    simp
  have hun : unsignalled (tasks.set i t.advance) + 1 = unsignalled tasks := by
    have := unsignalled_set tasks i t t.advance hget
    rw [hs0, hs1] at this
    simpa using this
  have hsc : sc = false := by
    cases sc with
    | false => rfl
    | true => rcases h7.mp rfl with h | h
              · exact absurd h hpc0.1
              · exact absurd h hpc0.2
  have hoc : oc = false := by
    cases oc with
    | false => rfl
    | true => exact absurd (h8.mp rfl) hpc0.2
  refine ⟨?_, ?_, progs_set s env input tasks i t h3 hget, ?_, ?_, ?_, ?_, ?_, ?_, ?_, ?_, ?_⟩
  · simp only [hadj]
    rw [hadj0] at h1
    omega
  · simp only [urls_set tasks i t t.advance hget rfl, hpend]; exact h2
  · simp only [List.length_set]; omega
  · simp only [hseen]; exact h5
  · simp only [hpast]; intro h; exact Bool.noConfusion h
  · simp only [hsc]
    constructor
    · intro h; exact Bool.noConfusion h
    · rintro (h | h)
      · exact absurd h hpc.1
      · exact absurd h hpc.2.1
  · simp only [hoc]
    constructor
    · intro h; exact Bool.noConfusion h
    · intro h; exact absurd h hpc.2.1
  · intro h; exact absurd h hpc.2.2.1
  · intro h; exact absurd h hpc.2.2.2
  · have := emitted_set tasks i t t.advance [] hget (by
      rw [advance_records t _ ha]; simp [recordsOf])
    simp only [List.append_nil] at this
    exact h11.trans this
  · intro hc
    simp only at hc
    rw [hcr] at hc
    exact Bool.noConfusion hc

theorem inv_signalStep (s : Config) (env : Nat → TaskEnv) (input : List String)
    (st st1 : State) (i : Nat) (hinv : Inv s env input st) (hcr : st.crashed = false)
    (hstep : signalStep i st = some st1) : Inv s env input st1 := by
  unfold signalStep at hstep
  cases hn : nextAction st i with
  | none => rw [hn] at hstep; exact Option.noConfusion hstep
  | some p =>
    obtain ⟨t, a⟩ := p
    obtain ⟨hget, ha⟩ := nextAction_some st i t a hn
    rw [hn] at hstep
    cases a with
    | sendSig =>
      simp only at hstep
      cases hpc : st.pc with
      | waitSig =>
        rw [hpc] at hstep
        simp only [Option.some.injEq] at hstep
        subst hstep
        exact inv_signal s env input st hinv hcr i t hget ha .decr (by rw [hpc]; rfl) rfl
          (by rw [hpc]; rfl) (by rw [hpc]; rfl) rfl (by rw [hpc]; simp) (by simp)
      | drainWait =>
        rw [hpc] at hstep
        simp only [Option.some.injEq] at hstep
        subst hstep
        exact inv_signal s env input st hinv hcr i t hget ha .drainDecr (by rw [hpc]; rfl) rfl
          (by rw [hpc]; rfl) (by rw [hpc]; rfl) rfl (by rw [hpc]; simp) (by simp)
      | _ => rw [hpc] at hstep; exact Option.noConfusion hstep
    | _ => exact Option.noConfusion hstep


theorem all_signalled_of_closed (s : Config) (env : Nat → TaskEnv) (input : List String)
    (st : State) (hinv : Inv s env input st) (hclosed : st.sigClosed = true ∨ st.outClosed = true)
    (t : Task) (ht : t ∈ st.tasks) : t.signalled = true := by
  have hpc : st.pc = .closeOut ∨ st.pc = .done := by
    rcases hclosed with h | h
    · exact hinv.sigClosed.mp h
    · exact Or.inr (hinv.outClosed.mp h)
  have hc : st.requestCounter = 0 := hinv.drained (by rcases hpc with h | h <;> rw [h] <;> rfl)
  have hadj : pcAdjust st.pc = 0 := by rcases hpc with h | h <;> rw [h] <;> rfl
  have h1 := hinv.counter
  rw [hc, hadj] at h1
  exact signalled_of_unsignalled_zero st.tasks (by omega) t ht

theorem inv_crash (s : Config) (env : Nat → TaskEnv) (input : List String) (st : State)
    (hinv : Inv s env input st) (t : Task) (ht : t ∈ st.tasks) (msg : String)
    (hm : TaskAction.panic msg ∈ t.prog) :
    Inv s env input { st with crashed := true } := by
  obtain ⟨h1, h2, h3, h4, h5, h6, h7, h8, h9, h10, h11, h12⟩ := hinv
  exact ⟨h1, h2, h3, h4, h5, h6, h7, h8, h9, h10, h11, fun _ => ⟨t, ht, msg, hm⟩⟩

theorem inv_taskStep (s : Config) (env : Nat → TaskEnv) (input : List String)
    (st st1 : State) (i : Nat) (hinv : Inv s env input st) (hcr : st.crashed = false)
    (hstep : taskStep i st = some st1) : Inv s env input st1 := by
  unfold taskStep at hstep
  cases hn : nextAction st i with
  | none => rw [hn] at hstep; exact Option.noConfusion hstep
  | some p =>
    obtain ⟨t, a⟩ := p
    obtain ⟨hget, ha⟩ := nextAction_some st i t a hn
    have hmem : t ∈ st.tasks := mem_of_get? _ _ _ hget
    have hshape := inv_shape s env input st hinv t hmem
    rw [hn] at hstep
    cases a with
    | sendOut r =>
      simp only at hstep
      rcases Bool.eq_false_or_eq_true st.outClosed with hoc | hoc
      · have h1 := all_signalled_of_closed s env input st hinv (Or.inr hoc) t hmem
        rw [(shape_sendOut t hshape r ha).1] at h1
        exact Bool.noConfusion h1
      · rw [if_neg (by simp [hoc])] at hstep
        simp only [Option.some.injEq] at hstep
        subst hstep
        have := inv_advance s env input st hinv hcr i t _ hget ha (by simp) (st.out ++ [r])
          (by simp [recordsOf])
        exact this
    | closeBody =>
      simp only [Option.some.injEq] at hstep
      subst hstep
      have := inv_advance s env input st hinv hcr i t _ hget ha (by simp) st.out
        (by simp [recordsOf])
      exact this
    | panic msg =>
      simp only [Option.some.injEq] at hstep
      subst hstep
      exact inv_crash s env input st hinv t hmem msg (mem_of_get? _ _ _ ha)
    | sendSig =>
      simp only at hstep
      rcases Bool.eq_false_or_eq_true st.sigClosed with hsc | hsc
      · have h1 := all_signalled_of_closed s env input st hinv (Or.inl hsc) t hmem
        rw [shape_sendSig t hshape ha] at h1
        exact Bool.noConfusion h1
      · rw [if_neg (by simp [hsc])] at hstep
        exact Option.noConfusion hstep

theorem inv_step (s : Config) (env : Nat → TaskEnv) (input : List String) (m : Move)
    (st st1 : State) (hinv : Inv s env input st) (hstep : step s env m st = some st1) :
    Inv s env input st1 := by
  unfold step at hstep
  rcases Bool.eq_false_or_eq_true st.crashed with hcr | hcr
  · rw [if_pos hcr] at hstep; exact Option.noConfusion hstep
  · rw [if_neg (by simp [hcr])] at hstep
    cases m with
    | sched => exact inv_schedStep s env input st st1 hinv hstep
    | signal i => exact inv_signalStep s env input st st1 i hinv hcr hstep
    | task i => exact inv_taskStep s env input st st1 i hinv hcr hstep

theorem inv_runFrom (s : Config) (env : Nat → TaskEnv) (input : List String) (sch : List Move) :
    ∀ st st1, Inv s env input st → runFrom s env sch st = some st1 → Inv s env input st1 := by
  induction sch with
  | nil =>
    intro st st1 hinv h
    simp only [runFrom, Option.some.injEq] at h
    rw [← h]; exact hinv
  | cons m ms ih =>
    intro st st1 hinv h
    rw [runFrom] at h
    cases hs : step s env m st with
    | none => rw [hs] at h; exact Option.noConfusion h
    | some st2 =>
      rw [hs] at h
      exact ih st2 st1 (inv_step s env input m st st2 hinv hs) h

theorem inv_run (s : Config) (env : Nat → TaskEnv) (input : List String) (sch : List Move)
    (st : State) (h : run s env input sch = some st) : Inv s env input st :=
  inv_runFrom s env input sch _ st (inv_init s env input) h


/-! ### The admission bound -/

theorem taskStep_frame (i : Nat) (st st1 : State) (h : taskStep i st = some st1) :
    st1.pc = st.pc ∧ st1.requestCounter = st.requestCounter ∧ st1.input = st.input := by
  unfold taskStep at h
  split at h
  · split at h <;> simp only [Option.some.injEq] at h <;> subst h <;> exact ⟨rfl, rfl, rfl⟩
  · simp only [Option.some.injEq] at h; subst h; exact ⟨rfl, rfl, rfl⟩
  · simp only [Option.some.injEq] at h; subst h; exact ⟨rfl, rfl, rfl⟩
  · split at h
    · simp only [Option.some.injEq] at h; subst h; exact ⟨rfl, rfl, rfl⟩
    · exact Option.noConfusion h
  · exact Option.noConfusion h

theorem signalStep_frame (i : Nat) (st st1 : State) (h : signalStep i st = some st1) :
    st1.requestCounter = st.requestCounter ∧ st1.input = st.input ∧
      ((st.pc = .waitSig ∧ st1.pc = .decr) ∨ (st.pc = .drainWait ∧ st1.pc = .drainDecr)) := by
  unfold signalStep at h
  split at h
  · split at h
    · rename_i hpc
      simp only [Option.some.injEq] at h; subst h
      exact ⟨rfl, rfl, Or.inl ⟨hpc, rfl⟩⟩
    · rename_i hpc
      simp only [Option.some.injEq] at h; subst h
      exact ⟨rfl, rfl, Or.inr ⟨hpc, rfl⟩⟩
    · exact Option.noConfusion h
  · exact Option.noConfusion h

theorem counterBound_schedStep (s : Config) (env : Nat → TaskEnv) (st st1 : State)
    (hb : CounterBound s.ParallelReqCount st) (h : schedStep s env st = some st1) :
    CounterBound s.ParallelReqCount st1 := by
  obtain ⟨pc, c, inp, tasks, out, sr, sc, oc, cr⟩ := st
  unfold CounterBound at hb ⊢
  cases pc with
  | top =>
    simp only [schedStep, Option.some.injEq] at h
    subst h
    simp only [pcReserve] at hb
    by_cases hk : c ≥ s.ParallelReqCount
    · simp only [hk, if_true, pcReserve]; omega
    · simp only [hk, if_false, pcReserve]; omega
  | recvIn =>
    simp only [pcReserve] at hb
    cases inp with
    | nil =>
      simp only [schedStep, Option.some.injEq] at h; subst h; simp only [pcReserve]; omega
    | cons u rest =>
      simp only [schedStep, Option.some.injEq] at h; subst h; simp only [pcReserve]; omega
  | drainCheck =>
    simp only [schedStep, Option.some.injEq] at h
    subst h
    simp only [pcReserve] at hb
    by_cases hk : c > 0
    · simp only [hk, if_true, pcReserve]; omega
    · simp only [hk, if_false, pcReserve]; omega
  | drainDecr =>
    simp only [schedStep, Option.some.injEq] at h
    subst h
    simp only [pcReserve] at hb
    by_cases hk : c - 1 = 0
    · simp only [hk, if_true, pcReserve]; omega
    · simp only [hk, if_false, pcReserve]; omega
  | waitSig => exact Option.noConfusion h
  | drainWait => exact Option.noConfusion h
  | done => exact Option.noConfusion h
  | decr =>
    simp only [schedStep, Option.some.injEq] at h; subst h; simp only [pcReserve] at hb ⊢; omega
  | incr u =>
    simp only [schedStep, Option.some.injEq] at h; subst h; simp only [pcReserve] at hb ⊢; omega
  | spawn u =>
    simp only [schedStep, Option.some.injEq] at h; subst h; simp only [pcReserve] at hb ⊢; omega
  | closeSig =>
    simp only [schedStep, Option.some.injEq] at h; subst h; simp only [pcReserve] at hb ⊢; omega
  | closeOut =>
    simp only [schedStep, Option.some.injEq] at h; subst h; simp only [pcReserve] at hb ⊢; omega

theorem counterBound_step (s : Config) (env : Nat → TaskEnv) (m : Move) (st st1 : State)
    (hb : CounterBound s.ParallelReqCount st) (h : step s env m st = some st1) :
    CounterBound s.ParallelReqCount st1 := by
  unfold step at h
  rcases Bool.eq_false_or_eq_true st.crashed with hcr | hcr
  · rw [if_pos hcr] at h; exact Option.noConfusion h
  · rw [if_neg (by simp [hcr])] at h
    cases m with
    | sched => exact counterBound_schedStep s env st st1 hb h
    | signal i =>
      obtain ⟨h1, _, h3⟩ := signalStep_frame i st st1 h
      unfold CounterBound at hb ⊢
      rcases h3 with ⟨h4, h5⟩ | ⟨h4, h5⟩ <;> rw [h4] at hb <;> rw [h5, h1] <;>
        simpa [pcReserve] using hb
    | task i =>
      obtain ⟨h1, h2, _⟩ := taskStep_frame i st st1 h
      unfold CounterBound at hb ⊢
      rw [h1, h2]; exact hb

theorem counterBound_runFrom (s : Config) (env : Nat → TaskEnv) (sch : List Move) :
    ∀ st st1, CounterBound s.ParallelReqCount st → runFrom s env sch st = some st1 →
      CounterBound s.ParallelReqCount st1 := by
  induction sch with
  | nil =>
    intro st st1 hb h
    simp only [runFrom, Option.some.injEq] at h
    rw [← h]; exact hb
  | cons m ms ih =>
    intro st st1 hb h
    rw [runFrom] at h
    cases hs : step s env m st with
    | none => rw [hs] at h; exact Option.noConfusion h
    | some st2 =>
      rw [hs] at h
      exact ih st2 st1 (counterBound_step s env m st st2 hb hs) h

theorem pcAdjust_nonneg (pc : Pc) : 0 ≤ pcAdjust pc := by
  cases pc <;> simp [pcAdjust]

/-- C1 as stated fails: with `maxParallel = -1` the counter is 0, above the bound, in the
initial state of the scheduler. -/
theorem negative_maxParallel_breaks_bound :
    run ⟨10, 3, -1⟩ okEnv [] [] = some (initState []) ∧
      ¬ AdmissionBound (-1) (initState []) := by
  refine ⟨rfl, ?_⟩
  unfold AdmissionBound
  decide

/-- C1 (amended): for every input, every `maxParallel = k >= 0`, every environment and every
interleaving, every reachable state of the scheduler satisfies `0 <= requestCounter <= k`, and
the number of launched tasks whose completion signal has not been received is at most `k`. -/
theorem admission_bound (s : Config) (env : Nat → TaskEnv) (input : List String)
    (hk : 0 ≤ s.ParallelReqCount) (sch : List Move) (st : State)
    (hrun : run s env input sch = some st) : AdmissionBound s.ParallelReqCount st := by
  have hinv := inv_run s env input sch st hrun
  have hb : CounterBound s.ParallelReqCount st :=
    counterBound_runFrom s env sch _ st (by simpa [CounterBound, initState] using hk) hrun
  have h1 := hinv.counter
  have h2 := pcAdjust_nonneg st.pc
  unfold CounterBound at hb
  have h3 : st.requestCounter ≤ s.ParallelReqCount := by
    have : (0 : Int) ≤ pcReserve st.pc := by
      cases st.pc <;> simp [pcReserve]
    omega
  refine ⟨by omega, h3, ?_⟩
  unfold inFlight
  omega


/-! ### Termination -/

theorem pendingActions_launch (tasks : List Task) (url : String) (prog : List TaskAction) :
    pendingActions (tasks ++ [⟨url, prog, 0⟩]) = pendingActions tasks + prog.length := by
  rw [pendingActions_append, pendingActions_cons]
  simp [pendingActions]

theorem scrapeUrl_length (s : Config) (get : Nat → GetOutcome) (date url : String) :
    (scrapeUrl s get date url).length ≤ 3 := by
  rcases scrapeUrl_shape s get date url with h | ⟨m, h⟩ | ⟨a, b, c, h⟩ <;> rw [h] <;> simp

theorem potential_schedStep (s : Config) (env : Nat → TaskEnv) (st st1 : State)
    (h : schedStep s env st = some st1) : potential st1 < potential st := by
  obtain ⟨pc, c, inp, tasks, out, sr, sc, oc, cr⟩ := st
  unfold potential
  cases pc with
  | top =>
    simp only [schedStep, Option.some.injEq] at h
    subst h
    by_cases hk : c ≥ s.ParallelReqCount
    · simp only [hk, if_true, pcRank]; omega
    · simp only [hk, if_false, pcRank]; omega
  | recvIn =>
    cases inp with
    | nil =>
      simp only [schedStep, Option.some.injEq] at h; subst h; simp only [pcRank]; omega
    | cons u rest =>
      simp only [schedStep, Option.some.injEq] at h; subst h
      simp only [pcRank, List.length_cons]; omega
  | drainCheck =>
    simp only [schedStep, Option.some.injEq] at h
    subst h
    by_cases hk : c > 0
    · simp only [hk, if_true, pcRank]; omega
    · simp only [hk, if_false, pcRank]; omega
  | drainDecr =>
    simp only [schedStep, Option.some.injEq] at h
    subst h
    by_cases hk : c - 1 = 0
    · simp only [hk, if_true, pcRank]; omega
    · simp only [hk, if_false, pcRank]; omega
  | waitSig => exact Option.noConfusion h
  | drainWait => exact Option.noConfusion h
  | done => exact Option.noConfusion h
  | decr => simp only [schedStep, Option.some.injEq] at h; subst h; simp only [pcRank]; omega
  | incr u => simp only [schedStep, Option.some.injEq] at h; subst h; simp only [pcRank]; omega
  | spawn u =>
    simp only [schedStep, Option.some.injEq] at h; subst h
    have := scrapeUrl_length s (env tasks.length).get (env tasks.length).date u
    simp only [pcRank, pendingActions_launch]; omega
  | closeSig => simp only [schedStep, Option.some.injEq] at h; subst h; simp only [pcRank]; omega
  | closeOut => simp only [schedStep, Option.some.injEq] at h; subst h; simp only [pcRank]; omega

theorem potential_signalStep (i : Nat) (st st1 : State)
    (h : signalStep i st = some st1) : potential st1 < potential st := by
  unfold signalStep at h
  cases hn : nextAction st i with
  | none => rw [hn] at h; exact Option.noConfusion h
  | some p =>
    obtain ⟨t, a⟩ := p
    obtain ⟨hget, ha⟩ := nextAction_some st i t a hn
    have hp := pendingActions_set st.tasks i t t.advance hget (advance_pending t a ha)
    rw [hn] at h
    cases a with
    | sendSig =>
      simp only at h
      cases hpc : st.pc with
      | waitSig =>
        rw [hpc] at h
        simp only [Option.some.injEq] at h
        subst h
        simp only [potential, hpc, pcRank]; omega
      | drainWait =>
        rw [hpc] at h
        simp only [Option.some.injEq] at h
        subst h
        simp only [potential, hpc, pcRank]; omega
      | _ => rw [hpc] at h; exact Option.noConfusion h
    | _ => exact Option.noConfusion h

theorem potential_taskStep (i : Nat) (st st1 : State) (hcr : st.crashed = false)
    (h : taskStep i st = some st1) : potential st1 < potential st := by
  unfold taskStep at h
  cases hn : nextAction st i with
  | none => rw [hn] at h; exact Option.noConfusion h
  | some p =>
    obtain ⟨t, a⟩ := p
    obtain ⟨hget, ha⟩ := nextAction_some st i t a hn
    have hp := pendingActions_set st.tasks i t t.advance hget (advance_pending t a ha)
    rw [hn] at h
    cases a with
    | sendOut r =>
      simp only at h
      split at h
      · simp only [Option.some.injEq] at h; subst h
        simp only [potential, hcr]; simp
      · simp only [Option.some.injEq] at h; subst h
        simp only [potential]; omega
    | closeBody =>
      simp only [Option.some.injEq] at h; subst h
      simp only [potential]; omega
    | panic msg =>
      simp only [Option.some.injEq] at h; subst h
      simp only [potential, hcr]; simp
    | sendSig =>
      simp only at h
      split at h
      · simp only [Option.some.injEq] at h; subst h
        simp only [potential, hcr]; simp
      · exact Option.noConfusion h

theorem potential_step (s : Config) (env : Nat → TaskEnv) (m : Move) (st st1 : State)
    (h : step s env m st = some st1) : potential st1 < potential st := by
  unfold step at h
  rcases Bool.eq_false_or_eq_true st.crashed with hcr | hcr
  · rw [if_pos hcr] at h; exact Option.noConfusion h
  · rw [if_neg (by simp [hcr])] at h
    cases m with
    | sched => exact potential_schedStep s env st st1 h
    | signal i => exact potential_signalStep i st st1 h
    | task i => exact potential_taskStep i st st1 hcr h

theorem potential_runFrom (s : Config) (env : Nat → TaskEnv) (sch : List Move) :
    ∀ st st1, runFrom s env sch st = some st1 → sch.length + potential st1 ≤ potential st := by
  induction sch with
  | nil =>
    intro st st1 h
    simp only [runFrom, Option.some.injEq] at h
    rw [← h]; simp
  | cons m ms ih =>
    intro st st1 h
    rw [runFrom] at h
    cases hs : step s env m st with
    | none => rw [hs] at h; exact Option.noConfusion h
    | some st2 =>
      rw [hs] at h
      have h1 := ih st2 st1 h
      have h2 := potential_step s env m st st2 hs
      simp only [List.length_cons]
      omega

theorem runFrom_append (s : Config) (env : Nat → TaskEnv) (sch1 sch2 : List Move) :
    ∀ st st1, runFrom s env sch1 st = some st1 →
      runFrom s env (sch1 ++ sch2) st = runFrom s env sch2 st1 := by
  induction sch1 with
  | nil =>
    intro st st1 h
    simp only [runFrom, Option.some.injEq] at h
    rw [← h]; rfl
  | cons m ms ih =>
    intro st st1 h
    rw [runFrom] at h
    rw [List.cons_append, runFrom]
    cases hs : step s env m st with
    | none => rw [hs] at h; exact Option.noConfusion h
    | some st2 =>
      rw [hs] at h
      exact ih st2 st1 h

/-! ## Progress, termination and the output of `Scrape` -/

theorem get?_lt {α : Type} (l : List α) (i : Nat) (a : α) (h : l.get? i = some a) :
    i < l.length := by
  by_contra hc
  rw [List.get?_eq_none.mpr (by omega)] at h
  exact Option.noConfusion h

theorem exists_unsignalled (tasks : List Task) (h : 0 < unsignalled tasks) :
    ∃ i t, tasks.get? i = some t ∧ t.signalled = false := by
  unfold unsignalled at h
  obtain ⟨t, ht⟩ := List.exists_mem_of_length_pos h
  rw [List.mem_filter] at ht
  obtain ⟨i, hi⟩ := List.mem_iff_get?.mp ht.1
  exact ⟨i, t, hi, by simpa using ht.2⟩

theorem mem_enabledMoves (s : Config) (env : Nat → TaskEnv) (st st1 : State) (m : Move)
    (hm : m = .sched ∨ (∃ i, i < st.tasks.length ∧ (m = .signal i ∨ m = .task i)))
    (h : step s env m st = some st1) : m ∈ enabledMoves s env st := by
  unfold enabledMoves
  rw [List.mem_filter]
  refine ⟨?_, by rw [h]; rfl⟩
  rcases hm with h1 | ⟨i, hi, h1 | h1⟩
  · subst h1; simp
  · subst h1; simp [hi]
  · subst h1; simp [hi]

theorem no_crash (s : Config) (env : Nat → TaskEnv) (input : List String) (st : State)
    (hinv : Inv s env input st)
    (hsig : ∀ i, i < input.length → TaskAction.sendSig ∈ launchProg s env input i) :
    st.crashed = false := by
  rcases Bool.eq_false_or_eq_true st.crashed with hcr | hcr
  · obtain ⟨t, ht, msg, hm⟩ := hinv.crash hcr
    obtain ⟨i, hi, hu, hp⟩ := hinv.progs t ht
    have hshape := inv_shape s env input st hinv t ht
    exact absurd hm (shape_no_panic t.url t.prog hshape (by rw [hp]; exact hsig i hi) msg)
  · exact hcr

theorem schedStep_isSome (s : Config) (env : Nat → TaskEnv) (st : State)
    (h1 : st.pc ≠ .waitSig) (h2 : st.pc ≠ .drainWait) (h3 : st.pc ≠ .done) :
    ∃ st1, schedStep s env st = some st1 := by
  obtain ⟨pc, c, inp, tasks, out, sr, sc, oc, cr⟩ := st
  cases pc with
  | waitSig => exact absurd rfl h1
  | drainWait => exact absurd rfl h2
  | done => exact absurd rfl h3
  | recvIn => cases inp <;> exact ⟨_, rfl⟩
  | _ => exact ⟨_, rfl⟩

theorem step_of_waiting (s : Config) (env : Nat → TaskEnv) (input : List String) (st : State)
    (hinv : Inv s env input st)
    (hsig : ∀ i, i < input.length → TaskAction.sendSig ∈ launchProg s env input i)
    (hpc : st.pc = .waitSig ∨ st.pc = .drainWait) (hpos : 0 < st.requestCounter) :
    ∃ i st1, i < st.tasks.length ∧
      (step s env (.signal i) st = some st1 ∨ step s env (.task i) st = some st1) := by
  have hcr := no_crash s env input st hinv hsig
  have hadj : pcAdjust st.pc = 0 := by rcases hpc with h | h <;> rw [h] <;> rfl
  have hc := hinv.counter
  rw [hadj] at hc
  obtain ⟨i, t, hget, hun⟩ := exists_unsignalled st.tasks (by omega)
  have hmem := mem_of_get? _ _ _ hget
  obtain ⟨j, hj, hu, hp⟩ := hinv.progs t hmem
  have hshape := inv_shape s env input st hinv t hmem
  have hnext : nextAction st i = some (t, .sendSig) ∨ ∃ r, nextAction st i = some (t, .sendOut r) := by
    rcases shape_next t hshape (by rw [hp]; exact hsig j hj) hun with h | ⟨r, h⟩
    · left; simp only [nextAction, hget, h]
    · right; exact ⟨r, by simp only [nextAction, hget, h]⟩
  have hoc : st.outClosed = false := by
    rcases Bool.eq_false_or_eq_true st.outClosed with h | h
    · have := hinv.outClosed.mp h
      rcases hpc with h1 | h1 <;> rw [h1] at this <;> exact Pc.noConfusion this
    · exact h
  refine ⟨i, ?_⟩
  rcases hnext with h | ⟨r, h⟩
  · rcases hpc with h1 | h1
    · exact ⟨_, get?_lt _ _ _ hget, Or.inl (by
        simp only [step, hcr, signalStep, h, h1]; rfl)⟩
    · exact ⟨_, get?_lt _ _ _ hget, Or.inl (by
        simp only [step, hcr, signalStep, h, h1]; rfl)⟩
  · exact ⟨_, get?_lt _ _ _ hget, Or.inr (by
      simp only [step, hcr, taskStep, h, hoc]; rfl)⟩

theorem progress (s : Config) (env : Nat → TaskEnv) (input : List String) (st : State)
    (hinv : Inv s env input st) (hk : 1 ≤ s.ParallelReqCount)
    (hsig : ∀ i, i < input.length → TaskAction.sendSig ∈ launchProg s env input i)
    (hpc : st.pc ≠ .done) :
    ∃ m st1, m ∈ enabledMoves s env st ∧ step s env m st = some st1 := by
  have hcr := no_crash s env input st hinv hsig
  by_cases hw : st.pc = .waitSig ∨ st.pc = .drainWait
  · have hpos : 0 < st.requestCounter := by
      rcases hw with h | h
      · have := hinv.waiting h; omega
      · exact hinv.draining h
    obtain ⟨i, st1, hi, h | h⟩ := step_of_waiting s env input st hinv hsig hw hpos
    · exact ⟨.signal i, st1, mem_enabledMoves s env st st1 _ (Or.inr ⟨i, hi, Or.inl rfl⟩) h, h⟩
    · exact ⟨.task i, st1, mem_enabledMoves s env st st1 _ (Or.inr ⟨i, hi, Or.inr rfl⟩) h, h⟩
  · push_neg at hw
    obtain ⟨st1, h⟩ := schedStep_isSome s env st hw.1 hw.2 hpc
    have hs : step s env .sched st = some st1 := by simp only [step, hcr]; exact h
    exact ⟨.sched, st1, mem_enabledMoves s env st st1 _ (Or.inl rfl) hs, hs⟩

theorem completes (s : Config) (env : Nat → TaskEnv) (input : List String)
    (hk : 1 ≤ s.ParallelReqCount)
    (hsig : ∀ i, i < input.length → TaskAction.sendSig ∈ launchProg s env input i) :
    ∀ n st, potential st ≤ n → Inv s env input st →
      ∃ sch1 st1, runFrom s env sch1 st = some st1 ∧ st1.pc = .done ∧ st1.outClosed = true := by
  intro n
  induction n with
  | zero =>
    intro st hp hinv
    by_cases hpc : st.pc = .done
    · exact ⟨[], st, rfl, hpc, hinv.outClosed.mpr hpc⟩
    · obtain ⟨m, st1, _, h⟩ := progress s env input st hinv hk hsig hpc
      have := potential_step s env m st st1 h
      omega
  | succ n ih =>
    intro st hp hinv
    by_cases hpc : st.pc = .done
    · exact ⟨[], st, rfl, hpc, hinv.outClosed.mpr hpc⟩
    · obtain ⟨m, st1, _, h⟩ := progress s env input st hinv hk hsig hpc
      have hlt := potential_step s env m st st1 h
      obtain ⟨sch1, st2, h1, h2, h3⟩ := ih st1 (by omega) (inv_step s env input m st st1 hinv h)
      exact ⟨m :: sch1, st2, by rw [runFrom, h]; exact h1, h2, h3⟩

theorem drained_of_pastDrain (s : Config) (env : Nat → TaskEnv) (input : List String)
    (st : State) (hinv : Inv s env input st) (hp : pastDrain st.pc = true) :
    Drained input st := by
  have hseen : inputSeen st.pc = true := by
    cases h : st.pc <;> rw [h] at hp <;> first | rfl | exact Bool.noConfusion hp
  have hadj : pcAdjust st.pc = 0 := by
    cases h : st.pc <;> rw [h] at hp <;> first | rfl | exact Bool.noConfusion hp
  have hpend : pcPending st.pc = [] := by
    cases h : st.pc <;> rw [h] at hp <;> first | rfl | exact Bool.noConfusion hp
  have hin := hinv.seen hseen
  have hc := hinv.drained hp
  have h1 := hinv.counter
  have h2 := hinv.urls
  have h4 := hinv.received
  rw [hadj, hc] at h1
  rw [hpend, hin] at h2
  have hun : unsignalled st.tasks = 0 := by omega
  exact ⟨hin, by simpa using h2, by omega, hun, hc⟩


/-- C3 as stated fails: with `maxParallel = 0` and the input `["a"]`, every task would signal,
yet after its first step the scheduler is blocked in the receive from `sig` with no task
launched: no move is enabled and the channels are never closed. -/
theorem zero_maxParallel_blocks :
    (∀ i, i < ["a"].length → TaskAction.sendSig ∈ launchProg ⟨10, 3, 0⟩ okEnv ["a"] i) ∧
      run ⟨10, 3, 0⟩ okEnv ["a"] [.sched] = some { initState ["a"] with pc := .waitSig } ∧
      enabledMoves ⟨10, 3, 0⟩ okEnv { initState ["a"] with pc := .waitSig } = [] ∧
      ¬ SchedulerTerminates ⟨10, 3, 0⟩ okEnv ["a"] := by
  refine ⟨by decide, by decide, by decide, ?_⟩
  intro h
  exact (h [.sched] { initState ["a"] with pc := .waitSig } (by decide)).2.1 (by decide)
    (by decide)

/-- C3 (amended): for every finite input and every `maxParallel >= 1`, if every launched task
sends its completion signal (its program does not panic) and the output is consumed, the
scheduler terminates: every run has at most `13 * |input| + 7` steps, a run can stop only at
the end of the scheduler, every run extends to one that reaches the end with the output
closed, and the scheduler is past its loops only when the input is consumed, one task was
launched per input item and one signal was received per launched task; `sig` is closed only
then, and `out` only after `sig`. -/
theorem Scrape_terminates (s : Config) (env : Nat → TaskEnv) (input : List String)
    (hk : 1 ≤ s.ParallelReqCount)
    (hsig : ∀ i, i < input.length → TaskAction.sendSig ∈ launchProg s env input i) :
    SchedulerTerminates s env input := by
  intro sch st hrun
  have hinv := inv_run s env input sch st hrun
  refine ⟨?_, ?_, drained_of_pastDrain s env input st hinv, ?_, ?_, ?_⟩
  · have h0 : potential (initState input) = 13 * input.length + 7 := by
      simp [potential, initState, pendingActions, pcRank]
    have := potential_runFrom s env sch _ st hrun
    rw [h0] at this
    omega
  · intro hpc hnil
    obtain ⟨m, st1, hm, _⟩ := progress s env input st hinv hk hsig hpc
    rw [hnil] at hm
    exact List.not_mem_nil _ hm
  · intro h
    rcases hinv.sigClosed.mp h with h1 | h1 <;> rw [h1] <;> rfl
  · intro h
    have hpc := hinv.outClosed.mp h
    exact ⟨hinv.sigClosed.mpr (Or.inr hpc), hpc⟩
  · obtain ⟨sch1, st1, h1, h2, h3⟩ := completes s env input hk hsig (potential st) st
      (le_refl _) hinv
    exact ⟨sch1, st1, by
      unfold run at hrun ⊢
      rw [runFrom_append s env sch sch1 _ st hrun]; exact h1, h2, h3⟩

/-- Witness for C3 (amended): `maxParallel = 1`, input `["a"]`, every request answered 200. -/
theorem Scrape_terminates_witness : SchedulerTerminates ⟨10, 3, 1⟩ okEnv ["a"] :=
  Scrape_terminates ⟨10, 3, 1⟩ okEnv ["a"] (by decide) (by decide)

/-- C9 as stated fails: with `maxParallel = 0` and the empty input the scheduler is blocked
in the receive from `sig` after its first step, so the output is never closed. -/
theorem zero_maxParallel_never_closes :
    run ⟨10, 3, 0⟩ okEnv [] [.sched] = some { initState [] with pc := .waitSig } ∧
      enabledMoves ⟨10, 3, 0⟩ okEnv { initState [] with pc := .waitSig } = [] ∧
      ¬ EmptyInputCloses ⟨10, 3, 0⟩ okEnv := by
  refine ⟨by decide, by decide, ?_⟩
  intro h
  exact (h.1 [.sched] { initState [] with pc := .waitSig } (by decide)).2.2 (by decide)
    (by decide)

/-- C9 (amended): for every `maxParallel >= 1`, on the empty input no state of the scheduler
has a launched task or an emitted record, the scheduler is never blocked before its end, and
after five steps it has reached its end with the output closed and empty. -/
theorem empty_input_closes (s : Config) (env : Nat → TaskEnv) (hk : 1 ≤ s.ParallelReqCount) :
    EmptyInputCloses s env := by
  constructor
  · intro sch st hrun
    have hinv := inv_run s env [] sch st hrun
    have hu := hinv.urls
    have ht : st.tasks = [] := by
      have : st.tasks.map Task.url = [] := by
        have := congrArg List.length hu
        simp only [List.length_append, List.length_nil] at this
        exact List.eq_nil_of_length_eq_zero (by omega)
      simpa using this
    have ho : st.out = [] := by
      have := hinv.records
      rw [ht] at this
      simpa [emitted] using this
    refine ⟨ht, ho, ?_⟩
    intro hpc hnil
    obtain ⟨m, st1, hm, _⟩ := progress s env [] st hinv hk (by simp) hpc
    rw [hnil] at hm
    exact List.not_mem_nil _ hm
  · have hk1 : ¬ (0 : Int) ≥ s.ParallelReqCount := by omega
    refine ⟨[.sched, .sched, .sched, .sched, .sched],
      { initState [] with pc := .done, sigClosed := true, outClosed := true }, ?_, rfl, rfl, rfl,
      rfl⟩
    simp [run, runFrom, step, schedStep, initState, hk1]

/-- Witness for C9 (amended) with `maxParallel = 1`. -/
theorem empty_input_closes_witness : EmptyInputCloses ⟨10, 3, 1⟩ okEnv :=
  empty_input_closes ⟨10, 3, 1⟩ okEnv (by decide)


/-- Witness for C1 (amended): `maxParallel = 1`, input `["a"]`, at the point where the
scheduler waits for the only task. -/
theorem admission_bound_witness : AdmissionBound 1 waitingState :=
  admission_bound ⟨10, 3, 1⟩ okEnv ["a"] (by decide) waitingSchedule waitingState (by decide)

theorem scrapeUrl_of_first_success (s : Config) (get : Nat → GetOutcome) (date url : String)
    (hr : 1 ≤ s.Retry) (h0 : attemptFailed (get 0) = false) :
    (∃ msg, scrapeUrl s get date url = [.closeBody, .panic msg]) ∨
    (∃ status title description,
      scrapeUrl s get date url
        = [.sendOut [date, url, status, title, description], .sendSig, .closeBody]) := by
  obtain ⟨resp, _, _, he⟩ := fetchURL_success_at s get 0 (by omega) (by simp) h0
  unfold scrapeUrl
  rw [he]
  simp only
  cases hp : parseHtml resp.Body with
  | panicked msg => simp
  | ret r =>
    obtain ⟨t, d, e⟩ := r
    simp

theorem signalled_records (t : Task)
    (h : (∃ msg, t.prog = [.closeBody, .panic msg]) ∨
      (∃ r, urlField r = t.url ∧ t.prog = [.sendOut r, .sendSig, .closeBody]))
    (hs : t.signalled = true) :
    (recordsOf (t.prog.take t.pos)).map urlField = [t.url] := by
  obtain ⟨url, prog, pos⟩ := t
  rcases h with ⟨m, h⟩ | ⟨r, hr, h⟩ <;> simp only at h <;> subst h <;>
    rcases pos with _ | _ | _ | pos <;> simp [Task.signalled, recordsOf] at hs ⊢ <;> exact hr

theorem emitted_urls (tasks : List Task)
    (h : ∀ t ∈ tasks, (recordsOf (t.prog.take t.pos)).map urlField = [t.url]) :
    (emitted tasks).map urlField = tasks.map Task.url := by
  induction tasks with
  | nil => simp [emitted]
  | cons t l ih =>
    rw [emitted_cons, List.map_append, h t (List.mem_cons_self _ _),
      ih (fun x hx => h x (List.mem_cons_of_mem _ hx))]
    simp

/-- C2: if the fetch of every input URL succeeds on its first attempt (`Retry >= 1` and the
first response passes the test of line 100), then in every state of every run in which the
output has been closed, the records received on the output are, up to order, exactly one per
input URL: the multiset of their `url` fields (index 1) is the multiset of the input. -/
theorem Scrape_one_record_per_url (s : Config) (env : Nat → TaskEnv) (input : List String)
    (hfetch : ∀ i, i < input.length →
      1 ≤ s.Retry ∧ attemptFailed ((env i).get 0) = false)
    (sch : List Move) (st : State) (hrun : run s env input sch = some st)
    (hclosed : st.outClosed = true) :
    (↑(st.out.map urlField) : Multiset String) = ↑input ∧ st.out.length = input.length := by
  have hinv := inv_run s env input sch st hrun
  have hpc := hinv.outClosed.mp hclosed
  obtain ⟨_, hurls, _, hun, _⟩ := drained_of_pastDrain s env input st hinv (by rw [hpc]; rfl)
  have hrec : ∀ t ∈ st.tasks, (recordsOf (t.prog.take t.pos)).map urlField = [t.url] := by
    intro t ht
    obtain ⟨i, hi, hu, hp⟩ := hinv.progs t ht
    apply signalled_records t ?_ (signalled_of_unsignalled_zero st.tasks hun t ht)
    rw [hp, hu]
    unfold launchProg
    rcases scrapeUrl_of_first_success s (env i).get (env i).date (input.getD i "")
      (hfetch i hi).1 (hfetch i hi).2 with ⟨m, h⟩ | ⟨a, b, c, h⟩
    · exact Or.inl ⟨m, h⟩
    · exact Or.inr ⟨_, by simp [urlField], h⟩
  have hperm : (st.out.map urlField).Perm input := by
    have := (hinv.records).map urlField
    rwa [emitted_urls st.tasks hrec, hurls] at this
  exact ⟨Multiset.coe_eq_coe.mpr hperm, by simpa using hperm.length_eq⟩

/-- Witness for C2: `maxParallel = 1`, input `["a", "b"]`, every request answered 200, the
run `completeSchedule` to the close of the output. -/
theorem Scrape_one_record_per_url_witness :
    (↑(completeState.out.map urlField) : Multiset String) = ↑["a", "b"] ∧
      completeState.out.length = ["a", "b"].length :=
  Scrape_one_record_per_url ⟨10, 3, 1⟩ okEnv ["a", "b"] (by decide) completeSchedule
    completeState (by decide) (by decide)

end Scraper
